import Mathlib

/-
Verification development for the KnowThyPackets DNS schedule server
(src/inpycon25_dns/src/dns_server.py).

The Python code is shallowly embedded:
  * `datetime.fromisoformat` / `datetime.isoformat` are modelled for the
    fixed-width aware format "YYYY-MM-DDTHH:MM:SS+HH:MM" that the schedule
    dataset and the spec scenarios use (Python accepts further formats; the
    model returns `none` outside this format, which only ever makes the
    model fail where Python could succeed, never the other way round for
    the inputs used here).
  * A timezone-aware datetime is a record of calendar fields plus a fixed
    UTC offset in minutes; comparison of aware datetimes compares the
    absolute instant (wall-clock seconds from the proleptic-Gregorian
    ordinal, minus the offset), exactly as Python does.
  * Python exceptions are an explicit `Except PyErr` result; `.ok none`
    from the packet handler means "no outbound packet".
  * Python dicts are association lists with insert-keeps-position /
    overwrite semantics (`dictInsert`), matching dict update and iteration
    order.
-/

set_option maxHeartbeats 1600000
set_option maxRecDepth 4000

/-- Python exception kinds raised by the code paths modelled here. -/
inductive PyErr where
  | keyError (k : String)
  | indexError
  | valueError
  | typeError (msg : String)
  | overflowError
deriving DecidableEq

instance [DecidableEq e] [DecidableEq a] : DecidableEq (Except e a) := fun x y =>
  match x, y with
  | .error u, .error v =>
      match decEq u v with
      | isTrue h => isTrue (by rw [h])
      | isFalse h => isFalse (fun hh => h (by cases hh; rfl))
  | .error _, .ok _ => isFalse (fun hh => Except.noConfusion hh)
  | .ok _, .error _ => isFalse (fun hh => Except.noConfusion hh)
  | .ok u, .ok v =>
      match decEq u v with
      | isTrue h => isTrue (by rw [h])
      | isFalse h => isFalse (fun hh => h (by cases hh; rfl))

/-- Convert an optional value into an `Except`, raising `e` on `none`. -/
def orFail (o : Option α) (e : PyErr) : Except PyErr α :=
  match o with
  | some a => .ok a
  | none => .error e

/-- Python dict lookup on an association list. -/
def assocLookup [DecidableEq κ] (l : List (κ × ν)) (k : κ) : Option ν :=
  match l with
  | [] => none
  | (k0, v0) :: rest => if k0 = k then some v0 else assocLookup rest k

/-- Python dict assignment `d[k] = v`: overwrite in place if the key exists
(keeping its original position, as CPython dicts do), else append. -/
def dictInsert [DecidableEq κ] (l : List (κ × ν)) (k : κ) (v : ν) : List (κ × ν) :=
  match l with
  | [] => [(k, v)]
  | (k0, v0) :: rest => if k0 = k then (k0, v) :: rest else (k0, v0) :: dictInsert rest k v

/-- Gregorian leap-year test, as in Python's `calendar.isleap`. -/
def isLeap (y : Nat) : Bool := y % 4 == 0 && (y % 100 != 0 || y % 400 == 0)

/-- Days in a month of the proleptic Gregorian calendar. -/
def daysInMonth (y m : Nat) : Nat :=
  if m = 2 then (if isLeap y then 29 else 28)
  else if m = 4 ∨ m = 6 ∨ m = 9 ∨ m = 11 then 30 else 31

/-- Days in year `y` before the first of month `m`. -/
def daysBeforeMonth (y m : Nat) : Nat :=
  (if m ≤ 1 then 0 else if m = 2 then 31 else if m = 3 then 59 else if m = 4 then 90
   else if m = 5 then 120 else if m = 6 then 151 else if m = 7 then 181 else if m = 8 then 212
   else if m = 9 then 243 else if m = 10 then 273 else if m = 11 then 304 else 334) +
  (if 3 ≤ m ∧ isLeap y = true then 1 else 0)

/-- Leap years strictly before year `y` (years 1 .. y-1). -/
def leapsBefore (y : Nat) : Nat := (y - 1) / 4 - (y - 1) / 100 + (y - 1) / 400

/-- Days before January 1 of year `y` counting from January 1 of year 1. -/
def daysBeforeYear (y : Nat) : Nat := 365 * (y - 1) + leapsBefore y

/-- Proleptic Gregorian ordinal of a date, as Python's `date.toordinal`
(January 1 of year 1 is ordinal 1). -/
def toOrdinal (y m d : Nat) : Nat := daysBeforeYear y + daysBeforeMonth y m + d

/-- A timezone-aware datetime: calendar wall-clock fields plus a fixed UTC
offset in minutes (e.g. +05:30 is 330). -/
structure DT where
  year : Nat
  month : Nat
  day : Nat
  hour : Nat
  minute : Nat
  second : Nat
  offMin : Int
deriving DecidableEq

/-- Field ranges accepted by Python's `datetime` constructor (year 1..9999,
valid calendar date, time fields in range, UTC offset strictly under 24 h). -/
def ValidDT (dt : DT) : Prop :=
  1 ≤ dt.year ∧ dt.year ≤ 9999 ∧ 1 ≤ dt.month ∧ dt.month ≤ 12 ∧
  1 ≤ dt.day ∧ dt.day ≤ daysInMonth dt.year dt.month ∧
  dt.hour < 24 ∧ dt.minute < 60 ∧ dt.second < 60 ∧ dt.offMin.natAbs < 1440

instance : DecidablePred ValidDT := fun dt => by unfold ValidDT; infer_instance

/-- The absolute instant of an aware datetime in seconds: wall-clock seconds
since the calendar origin minus the UTC offset.  Python compares aware
datetimes by exactly this quantity. -/
def instantSec (dt : DT) : Int :=
  (toOrdinal dt.year dt.month dt.day : Int) * 86400 +
    (dt.hour : Int) * 3600 + (dt.minute : Int) * 60 + (dt.second : Int) - dt.offMin * 60

/-- `dt + timedelta(minutes=30)`: wall-clock addition with carry into hours,
days, months and years (a 30-minute step overflows at most one day). -/
def add30 (dt : DT) : DT :=
  let t := dt.minute + 30
  let hh := dt.hour + t / 60
  let dd := dt.day + hh / 24
  if dd ≤ daysInMonth dt.year dt.month then
    ⟨dt.year, dt.month, dd, hh % 24, t % 60, dt.second, dt.offMin⟩
  else if dt.month < 12 then
    ⟨dt.year, dt.month + 1, dd - daysInMonth dt.year dt.month, hh % 24, t % 60, dt.second, dt.offMin⟩
  else
    ⟨dt.year + 1, 1, dd - 31, hh % 24, t % 60, dt.second, dt.offMin⟩

/-- The decimal digit character for `n < 10`. -/
def digitChar (n : Nat) : Char := Char.ofNat (48 + n)

/-- Two-digit zero-padded print (`%02d` for values below 100). -/
def pad2l (n : Nat) : List Char := [digitChar (n / 10 % 10), digitChar (n % 10)]

/-- Four-digit zero-padded print (`%04d` for values below 10000). -/
def pad4l (n : Nat) : List Char :=
  [digitChar (n / 1000 % 10), digitChar (n / 100 % 10), digitChar (n / 10 % 10), digitChar (n % 10)]

/-- The character list of `datetime.isoformat()` for an aware datetime with
whole seconds: `YYYY-MM-DDTHH:MM:SS±HH:MM`. -/
def isoChars (dt : DT) : List Char :=
  pad4l dt.year ++ '-' :: pad2l dt.month ++ '-' :: pad2l dt.day ++
    'T' :: pad2l dt.hour ++ ':' :: pad2l dt.minute ++ ':' :: pad2l dt.second ++
    (if dt.offMin < 0 then '-' else '+') ::
      pad2l (dt.offMin.natAbs / 60) ++ ':' :: pad2l (dt.offMin.natAbs % 60)

/-- `datetime.isoformat()` as a string. -/
def isoformat (dt : DT) : String := String.mk (isoChars dt)

/-- Numeric value of a digit character. -/
def charVal (c : Char) : Nat := c.toNat - 48

/-- Value of a two-digit group. -/
def twoDigits (a b : Char) : Nat := 10 * charVal a + charVal b

/-- `datetime.fromisoformat` on the character list, restricted to the
fixed-width aware format used by the schedule data.  Validates separators,
digits and field ranges; returns `none` (Python: raises `ValueError`)
otherwise. -/
def parseChars : List Char → Option DT
  | [y1, y2, y3, y4, s1, a1, a2, s2, b1, b2, s3, c1, c2, s4, d1, d2, s5, e1, e2, sg, f1, f2, s6, g1, g2] =>
    if s1 = '-' ∧ s2 = '-' ∧ s3 = 'T' ∧ s4 = ':' ∧ s5 = ':' ∧ s6 = ':' ∧
       y1.isDigit ∧ y2.isDigit ∧ y3.isDigit ∧ y4.isDigit ∧
       a1.isDigit ∧ a2.isDigit ∧ b1.isDigit ∧ b2.isDigit ∧
       c1.isDigit ∧ c2.isDigit ∧ d1.isDigit ∧ d2.isDigit ∧
       e1.isDigit ∧ e2.isDigit ∧ f1.isDigit ∧ f2.isDigit ∧
       g1.isDigit ∧ g2.isDigit ∧ (sg = '+' ∨ sg = '-') then
      if ValidDT ⟨1000 * charVal y1 + 100 * charVal y2 + 10 * charVal y3 + charVal y4,
           twoDigits a1 a2, twoDigits b1 b2, twoDigits c1 c2, twoDigits d1 d2, twoDigits e1 e2,
           (if sg = '+' then (1 : Int) else -1) * (60 * twoDigits f1 f2 + twoDigits g1 g2)⟩ then
        some ⟨1000 * charVal y1 + 100 * charVal y2 + 10 * charVal y3 + charVal y4,
          twoDigits a1 a2, twoDigits b1 b2, twoDigits c1 c2, twoDigits d1 d2, twoDigits e1 e2,
          (if sg = '+' then (1 : Int) else -1) * (60 * twoDigits f1 f2 + twoDigits g1 g2)⟩
      else none
    else none
  | _ => none

/-- `datetime.fromisoformat` on strings. -/
def fromisoformat (s : String) : Option DT := parseChars s.data

example : fromisoformat "2025-09-13T10:10:00+05:30" = some ⟨2025, 9, 13, 10, 10, 0, 330⟩ := by
  decide

example : fromisoformat "2025-13-13T10:10:00+05:30" = none := by decide

example : add30 ⟨2025, 9, 13, 10, 10, 0, 330⟩ = ⟨2025, 9, 13, 10, 40, 0, 330⟩ := by decide

example : isoformat ⟨2025, 9, 13, 10, 40, 0, 330⟩ = "2025-09-13T10:40:00+05:30" := by decide

theorem charVal_digitChar_mod (n : Nat) : charVal (digitChar (n % 10)) = n % 10 := by
  have h : n % 10 < 10 := by omega
  revert h; generalize n % 10 = k; intro h
  interval_cases k <;> decide

theorem digitChar_isDigit_mod (n : Nat) : (digitChar (n % 10)).isDigit = true := by
  have h : n % 10 < 10 := by omega
  revert h; generalize n % 10 = k; intro h
  interval_cases k <;> decide

theorem fromisoformat_valid {s : String} {dt : DT} (h : fromisoformat s = some dt) :
    ValidDT dt := by
  unfold fromisoformat parseChars at h
  repeat' split at h
  all_goals cases h
  all_goals assumption

theorem daysInMonth_pos (y m : Nat) : 1 ≤ daysInMonth y m := by
  unfold daysInMonth; split_ifs <;> omega

theorem daysInMonth_le (y m : Nat) : daysInMonth y m ≤ 31 := by
  unfold daysInMonth; split_ifs <;> omega

set_option maxHeartbeats 1000000 in
theorem daysBeforeMonth_succ (y m : Nat) (h1 : 1 ≤ m) (h2 : m ≤ 11) :
    daysBeforeMonth y (m + 1) = daysBeforeMonth y m + daysInMonth y m := by
  interval_cases m <;> cases hL : isLeap y <;>
    simp only [daysBeforeMonth, daysInMonth, hL] <;> norm_num

theorem leapsBefore_succ (y : Nat) (hy : 1 ≤ y) :
    leapsBefore (y + 1) = leapsBefore y + (if isLeap y then 1 else 0) := by
  unfold leapsBefore isLeap
  split
  · next hL =>
      simp only [Bool.and_eq_true, Bool.or_eq_true, beq_iff_eq, bne_iff_ne, ne_eq] at hL
      omega
  · next hL =>
      simp only [Bool.and_eq_true, Bool.or_eq_true, beq_iff_eq, bne_iff_ne, ne_eq,
        not_and, not_or, Decidable.not_not] at hL
      omega

theorem daysBeforeYear_succ (y : Nat) (hy : 1 ≤ y) :
    daysBeforeYear (y + 1) = daysBeforeYear y + 365 + (if isLeap y then 1 else 0) := by
  unfold daysBeforeYear
  rw [leapsBefore_succ y hy]
  split <;> omega

theorem instantSec_add30 (dt : DT) (h : ValidDT dt) :
    instantSec (add30 dt) = instantSec dt + 1800 := by
  obtain ⟨y, mo, d, hr, mi, sc, off⟩ := dt
  obtain ⟨h1, h2, h3, h4, h5, h6, h7, h8, h9, h10⟩ := h
  simp only at h1 h2 h3 h4 h5 h6 h7 h8 h9 h10
  unfold add30
  simp only
  split
  · next hA =>
      unfold instantSec toOrdinal
      simp only
      push_cast
      omega
  · split
    · next hA hB =>
        -- month rollover: the carried day is exactly daysInMonth + 1
        unfold instantSec toOrdinal
        simp only
        rw [daysBeforeMonth_succ y mo h3 (by omega)]
        push_cast
        omega
    · next hA hB =>
        -- year rollover: month is 12, day is 31
        have hmo : mo = 12 := by omega
        subst hmo
        have hd31 : daysInMonth y 12 = 31 := by unfold daysInMonth; norm_num
        rw [hd31] at hA h6
        unfold instantSec toOrdinal
        simp only
        rw [daysBeforeYear_succ y h1]
        have hbm1 : daysBeforeMonth (y + 1) 1 = 0 := by unfold daysBeforeMonth; norm_num
        have hbm12 : daysBeforeMonth y 12 = 334 + (if isLeap y then 1 else 0) := by
          unfold daysBeforeMonth
          norm_num
        rw [hbm1, hbm12]
        split_ifs <;> omega

theorem add30_valid (dt : DT) (h : ValidDT dt) (hy : (add30 dt).year ≤ 9999) :
    ValidDT (add30 dt) := by
  obtain ⟨y, mo, d, hr, mi, sc, off⟩ := dt
  obtain ⟨h1, h2, h3, h4, h5, h6, h7, h8, h9, h10⟩ := h
  simp only at h1 h2 h3 h4 h5 h6 h7 h8 h9 h10
  unfold add30 at hy ⊢
  simp only at hy ⊢
  split at hy
  · next hA =>
      have hy2 : y ≤ 9999 := hy
      rw [if_pos hA]
      unfold ValidDT
      dsimp only
      exact ⟨h1, hy2, h3, h4, by omega, hA, by omega, by omega, h9, h10⟩
  · split at hy
    · next hA hB =>
        have hy2 : y ≤ 9999 := hy
        rw [if_neg hA, if_pos hB]
        unfold ValidDT
        dsimp only
        have hpos := daysInMonth_pos y (mo + 1)
        exact ⟨h1, hy2, by omega, by omega, by omega, by omega, by omega, by omega, h9, h10⟩
    · next hA hB =>
        have hy2 : y + 1 ≤ 9999 := hy
        rw [if_neg hA, if_neg hB]
        have hmo : mo = 12 := by omega
        subst hmo
        have hd31 : daysInMonth y 12 = 31 := by unfold daysInMonth; norm_num
        have h31 : daysInMonth (y + 1) 1 = 31 := by unfold daysInMonth; norm_num
        rw [hd31] at hA
        unfold ValidDT
        dsimp only
        rw [h31]
        exact ⟨by omega, hy2, by omega, by omega, by omega, by omega, by omega, by omega, h9, h10⟩

theorem fromisoformat_isoformat (dt : DT) (h : ValidDT dt) :
    fromisoformat (isoformat dt) = some dt := by
  obtain ⟨y, mo, d, hr, mi, sc, off⟩ := dt
  have hv := h
  obtain ⟨h1, h2, h3, h4, h5, h6, h7, h8, h9, h10⟩ := h
  simp only at h1 h2 h3 h4 h5 h6 h7 h8 h9 h10
  show parseChars (isoChars ⟨y, mo, d, hr, mi, sc, off⟩) = _
  unfold isoChars pad4l pad2l
  simp only
  by_cases hsg : (off : Int) < 0
  · rw [if_pos hsg]
    simp only [List.cons_append, List.nil_append]
    rw [parseChars]
    split
    · next hc =>
        have hX : (⟨1000 * charVal (digitChar (y / 1000 % 10)) + 100 * charVal (digitChar (y / 100 % 10)) +
              10 * charVal (digitChar (y / 10 % 10)) + charVal (digitChar (y % 10)),
            twoDigits (digitChar (mo / 10 % 10)) (digitChar (mo % 10)),
            twoDigits (digitChar (d / 10 % 10)) (digitChar (d % 10)),
            twoDigits (digitChar (hr / 10 % 10)) (digitChar (hr % 10)),
            twoDigits (digitChar (mi / 10 % 10)) (digitChar (mi % 10)),
            twoDigits (digitChar (sc / 10 % 10)) (digitChar (sc % 10)),
            (if ('-' : Char) = '+' then (1 : Int) else -1) *
              (60 * twoDigits (digitChar (off.natAbs / 60 / 10 % 10)) (digitChar (off.natAbs / 60 % 10)) +
                twoDigits (digitChar (off.natAbs % 60 / 10 % 10)) (digitChar (off.natAbs % 60 % 10)))⟩ : DT) =
            ⟨y, mo, d, hr, mi, sc, off⟩ := by
          have hdm := daysInMonth_le y mo
          rw [if_neg (by decide : ¬ ('-' : Char) = '+')]
          simp only [twoDigits, charVal_digitChar_mod, DT.mk.injEq]
          refine ⟨by omega, by omega, by omega, by omega, by omega, by omega, by omega⟩
        rw [hX, if_pos hv]
    · next hc =>
        exact (hc ⟨rfl, rfl, rfl, rfl, rfl, rfl,
          digitChar_isDigit_mod _, digitChar_isDigit_mod _, digitChar_isDigit_mod _,
          digitChar_isDigit_mod _, digitChar_isDigit_mod _, digitChar_isDigit_mod _,
          digitChar_isDigit_mod _, digitChar_isDigit_mod _, digitChar_isDigit_mod _,
          digitChar_isDigit_mod _, digitChar_isDigit_mod _, digitChar_isDigit_mod _,
          digitChar_isDigit_mod _, digitChar_isDigit_mod _, digitChar_isDigit_mod _,
          digitChar_isDigit_mod _, digitChar_isDigit_mod _, digitChar_isDigit_mod _,
          Or.inr rfl⟩).elim
  · rw [if_neg hsg]
    simp only [List.cons_append, List.nil_append]
    rw [parseChars]
    split
    · next hc =>
        have hX : (⟨1000 * charVal (digitChar (y / 1000 % 10)) + 100 * charVal (digitChar (y / 100 % 10)) +
              10 * charVal (digitChar (y / 10 % 10)) + charVal (digitChar (y % 10)),
            twoDigits (digitChar (mo / 10 % 10)) (digitChar (mo % 10)),
            twoDigits (digitChar (d / 10 % 10)) (digitChar (d % 10)),
            twoDigits (digitChar (hr / 10 % 10)) (digitChar (hr % 10)),
            twoDigits (digitChar (mi / 10 % 10)) (digitChar (mi % 10)),
            twoDigits (digitChar (sc / 10 % 10)) (digitChar (sc % 10)),
            (if ('+' : Char) = '+' then (1 : Int) else -1) *
              (60 * twoDigits (digitChar (off.natAbs / 60 / 10 % 10)) (digitChar (off.natAbs / 60 % 10)) +
                twoDigits (digitChar (off.natAbs % 60 / 10 % 10)) (digitChar (off.natAbs % 60 % 10)))⟩ : DT) =
            ⟨y, mo, d, hr, mi, sc, off⟩ := by
          have hdm := daysInMonth_le y mo
          rw [if_pos (rfl : ('+' : Char) = '+')]
          simp only [twoDigits, charVal_digitChar_mod, DT.mk.injEq]
          refine ⟨by omega, by omega, by omega, by omega, by omega, by omega, by omega⟩
        rw [hX, if_pos hv]
    · next hc =>
        exact (hc ⟨rfl, rfl, rfl, rfl, rfl, rfl,
          digitChar_isDigit_mod _, digitChar_isDigit_mod _, digitChar_isDigit_mod _,
          digitChar_isDigit_mod _, digitChar_isDigit_mod _, digitChar_isDigit_mod _,
          digitChar_isDigit_mod _, digitChar_isDigit_mod _, digitChar_isDigit_mod _,
          digitChar_isDigit_mod _, digitChar_isDigit_mod _, digitChar_isDigit_mod _,
          digitChar_isDigit_mod _, digitChar_isDigit_mod _, digitChar_isDigit_mod _,
          digitChar_isDigit_mod _, digitChar_isDigit_mod _, digitChar_isDigit_mod _,
          Or.inl rfl⟩).elim

/-- UTF-8 encoding of a single code point, as `str.encode("utf-8")` does per
character. -/
def utf8EncodeChar (n : Nat) : List Nat :=
  if n < 128 then [n]
  else if n < 2048 then [192 + n / 64, 128 + n % 64]
  else if n < 65536 then [224 + n / 4096, 128 + n / 64 % 64, 128 + n % 64]
  else [240 + n / 262144, 128 + n / 4096 % 64, 128 + n / 64 % 64, 128 + n % 64]

/-- UTF-8 encoding of a string's characters (`str.encode("utf-8")`). -/
def utf8EncodeList (cs : List Char) : List Nat :=
  cs.flatMap (fun c => utf8EncodeChar c.toNat)

/-- Byte length of a string's UTF-8 encoding (`len(s.encode("utf-8"))`). -/
def utf8Len (s : String) : Nat := (utf8EncodeList s.data).length

/-- Allowed range of the first continuation byte after a three-byte lead
(the E0/ED special rows of the UTF-8 table, which exclude overlong forms and
surrogates). -/
def cont3First (b b1 : Nat) : Prop :=
  (b = 224 → 160 ≤ b1 ∧ b1 < 192) ∧ (b = 237 → 128 ≤ b1 ∧ b1 < 160) ∧
  (b ≠ 224 → b ≠ 237 → 128 ≤ b1 ∧ b1 < 192)

/-- Allowed range of the first continuation byte after a four-byte lead
(the F0/F4 special rows, which exclude overlong forms and values beyond
U+10FFFF). -/
def cont4First (b b1 : Nat) : Prop :=
  (b = 240 → 144 ≤ b1 ∧ b1 < 192) ∧ (b = 244 → 128 ≤ b1 ∧ b1 < 144) ∧
  (b ≠ 240 → b ≠ 244 → 128 ≤ b1 ∧ b1 < 192)

instance : ∀ b b1, Decidable (cont3First b b1) := fun b b1 => by
  unfold cont3First; infer_instance

instance : ∀ b b1, Decidable (cont4First b b1) := fun b b1 => by
  unfold cont4First; infer_instance

/-- The worker of `utf8DecodeIgnore`, structurally recursive on a fuel that
is always at least the length of the remaining input (each step consumes at
least one byte). -/
def decodeGo : Nat → List Nat → List Char
  | 0, _ => []
  | _ + 1, [] => []
  | fuel + 1, b :: bs =>
    if b < 128 then Char.ofNat b :: decodeGo fuel bs
    else if b < 194 then decodeGo fuel bs
    else if b < 224 then
      match bs with
      | [] => []
      | b1 :: rest =>
        if 128 ≤ b1 ∧ b1 < 192 then
          Char.ofNat ((b - 192) * 64 + (b1 - 128)) :: decodeGo fuel rest
        else decodeGo fuel bs
    else if b < 240 then
      match bs with
      | [] => []
      | b1 :: rest =>
        match rest with
        | [] => if cont3First b b1 then [] else decodeGo fuel bs
        | b2 :: rest2 =>
          if cont3First b b1 ∧ 128 ≤ b2 ∧ b2 < 192 then
            Char.ofNat ((b - 224) * 4096 + (b1 - 128) * 64 + (b2 - 128)) :: decodeGo fuel rest2
          else decodeGo fuel bs
    else if b < 245 then
      match bs with
      | [] => []
      | b1 :: rest =>
        match rest with
        | [] => if cont4First b b1 then [] else decodeGo fuel bs
        | b2 :: rest2 =>
          match rest2 with
          | [] =>
            if cont4First b b1 ∧ 128 ≤ b2 ∧ b2 < 192 then [] else decodeGo fuel bs
          | b3 :: rest3 =>
            if cont4First b b1 ∧ (128 ≤ b2 ∧ b2 < 192) ∧ (128 ≤ b3 ∧ b3 < 192) then
              Char.ofNat ((b - 240) * 262144 + (b1 - 128) * 4096 + (b2 - 128) * 64 + (b3 - 128)) ::
                decodeGo fuel rest3
            else decodeGo fuel bs
    else decodeGo fuel bs

/-- `bytes.decode("utf-8", errors="ignore")`: decode a byte list, emitting
each well-formed scalar sequence and silently skipping ill-formed bytes
(including a truncated sequence at the end of the input). -/
def utf8DecodeIgnore (l : List Nat) : List Char := decodeGo l.length l

theorem decodeGo_nil (n : Nat) : decodeGo n [] = [] := by cases n <;> rfl

theorem decodeGo_fuel :
    ∀ (n : Nat) (l : List Nat), l.length ≤ n → decodeGo n l = utf8DecodeIgnore l := by
  intro n
  induction n using Nat.strong_induction_on with
  | _ n ih =>
      intro l hl
      match n, l with
      | 0, [] => rfl
      | k + 1, [] => rfl
      | k + 1, b :: bs =>
          rw [List.length_cons] at hl
          have key : ∀ (m1 m2 : Nat) (x : List Nat), m1 ≤ k → m2 ≤ k →
              x.length ≤ m1 → x.length ≤ m2 → decodeGo m1 x = decodeGo m2 x := by
            intro m1 m2 x hm1 hm2 hx1 hx2
            rw [ih m1 (by omega) x hx1, ih m2 (by omega) x hx2]
          show decodeGo (k + 1) (b :: bs) = decodeGo (bs.length + 1) (b :: bs)
          obtain ⟨m, hm⟩ : ∃ m, bs.length = m := ⟨_, rfl⟩
          rw [hm]
          have hmk : m ≤ k := by omega
          match bs, hm with
          | [], hm =>
              simp only [List.length_nil] at hm
              simp only [decodeGo]
              split_ifs <;>
                first
                  | rfl
                  | (apply key <;> (try simp only [List.length_cons, List.length_nil]) <;> omega)
                  | (apply congrArg
                     <;> apply key <;> (try simp only [List.length_cons, List.length_nil]) <;>
                       omega)
          | [b1], hm =>
              simp only [List.length_cons, List.length_nil] at hm
              simp only [decodeGo]
              split_ifs <;>
                first
                  | rfl
                  | (apply key <;> (try simp only [List.length_cons, List.length_nil]) <;> omega)
                  | (apply congrArg
                     <;> apply key <;> (try simp only [List.length_cons, List.length_nil]) <;>
                       omega)
          | [b1, b2], hm =>
              simp only [List.length_cons, List.length_nil] at hm
              simp only [decodeGo]
              split_ifs <;>
                first
                  | rfl
                  | (apply key <;> (try simp only [List.length_cons, List.length_nil]) <;> omega)
                  | (apply congrArg
                     <;> apply key <;> (try simp only [List.length_cons, List.length_nil]) <;>
                       omega)
          | b1 :: b2 :: b3 :: rest3, hm =>
              simp only [List.length_cons] at hm
              simp only [decodeGo]
              split_ifs <;>
                first
                  | rfl
                  | (apply key <;> (try simp only [List.length_cons, List.length_nil]) <;> omega)
                  | (apply congrArg
                     <;> apply key <;> (try simp only [List.length_cons, List.length_nil]) <;>
                       omega)

theorem char_toNat_valid (c : Char) :
    c.toNat < 55296 ∨ (57344 ≤ c.toNat ∧ c.toNat < 1114112) := by
  rcases c.valid with h | ⟨h1, h2⟩
  · exact Or.inl (@UInt32.toNat_lt_of_lt c.val 55296 (by decide) h)
  · refine Or.inr ⟨?_, @UInt32.toNat_lt_of_lt c.val 1114112 (by decide) h2⟩
    have := @UInt32.lt_toNat_of_lt c.val 57343 (by decide) h1
    have htn : c.toNat = c.val.toNat := rfl
    omega

theorem decode_ascii (b : Nat) (bs : List Nat) (h : b < 128) :
    utf8DecodeIgnore (b :: bs) = Char.ofNat b :: utf8DecodeIgnore bs := by
  unfold utf8DecodeIgnore
  simp only [List.length_cons]
  simp only [decodeGo]
  rw [if_pos h]

theorem decode_two (b b1 : Nat) (bs : List Nat) (h2 : 194 ≤ b) (h3 : b < 224)
    (hc : 128 ≤ b1 ∧ b1 < 192) :
    utf8DecodeIgnore (b :: b1 :: bs) =
      Char.ofNat ((b - 192) * 64 + (b1 - 128)) :: utf8DecodeIgnore bs := by
  have hA : ¬ b < 128 := by omega
  have hB : ¬ b < 194 := by omega
  unfold utf8DecodeIgnore
  simp only [List.length_cons]
  simp only [decodeGo]
  rw [if_neg hA, if_neg hB, if_pos h3, if_pos hc]
  rw [decodeGo_fuel (bs.length + 1) bs (by omega)]
  rfl

theorem decode_three (b b1 b2 : Nat) (bs : List Nat) (h2 : 224 ≤ b) (h3 : b < 240)
    (hc : cont3First b b1 ∧ 128 ≤ b2 ∧ b2 < 192) :
    utf8DecodeIgnore (b :: b1 :: b2 :: bs) =
      Char.ofNat ((b - 224) * 4096 + (b1 - 128) * 64 + (b2 - 128)) :: utf8DecodeIgnore bs := by
  have hA : ¬ b < 128 := by omega
  have hB : ¬ b < 194 := by omega
  have hC : ¬ b < 224 := by omega
  unfold utf8DecodeIgnore
  simp only [List.length_cons]
  simp only [decodeGo]
  rw [if_neg hA, if_neg hB, if_neg hC, if_pos h3, if_pos hc]
  rw [decodeGo_fuel (bs.length + 2) bs (by omega)]
  rfl

theorem decode_four (b b1 b2 b3 : Nat) (bs : List Nat) (h2 : 240 ≤ b) (h3 : b < 245)
    (hc : cont4First b b1 ∧ (128 ≤ b2 ∧ b2 < 192) ∧ (128 ≤ b3 ∧ b3 < 192)) :
    utf8DecodeIgnore (b :: b1 :: b2 :: b3 :: bs) =
      Char.ofNat ((b - 240) * 262144 + (b1 - 128) * 4096 + (b2 - 128) * 64 + (b3 - 128)) ::
        utf8DecodeIgnore bs := by
  have hA : ¬ b < 128 := by omega
  have hB : ¬ b < 194 := by omega
  have hC : ¬ b < 224 := by omega
  have hD : ¬ b < 240 := by omega
  unfold utf8DecodeIgnore
  simp only [List.length_cons]
  simp only [decodeGo]
  rw [if_neg hA, if_neg hB, if_neg hC, if_neg hD, if_pos h3, if_pos hc]
  rw [decodeGo_fuel (bs.length + 3) bs (by omega)]
  rfl

theorem char_toNat_ofNat {n : Nat} (h : n.isValidChar) : (Char.ofNat n).toNat = n := by
  rw [Char.ofNat, dif_pos h]
  rfl

theorem utf8DecodeIgnore_encodeChar (c : Char) (rest : List Nat) :
    utf8DecodeIgnore (utf8EncodeChar c.toNat ++ rest) = c :: utf8DecodeIgnore rest := by
  have hv := char_toNat_valid c
  have hofn : Char.ofNat c.toNat = c := Char.ofNat_toNat c
  by_cases h1 : c.toNat < 128
  · have he : utf8EncodeChar c.toNat = [c.toNat] := by rw [utf8EncodeChar, if_pos h1]
    rw [he]
    simp only [List.cons_append, List.nil_append]
    rw [decode_ascii _ _ h1, hofn]
  · by_cases h2 : c.toNat < 2048
    · have he : utf8EncodeChar c.toNat = [192 + c.toNat / 64, 128 + c.toNat % 64] := by
        rw [utf8EncodeChar, if_neg h1, if_pos h2]
      rw [he]
      simp only [List.cons_append, List.nil_append]
      rw [decode_two _ _ _ (by omega) (by omega) (by omega)]
      have hval : (192 + c.toNat / 64 - 192) * 64 + (128 + c.toNat % 64 - 128) = c.toNat := by
        omega
      rw [hval, hofn]
    · by_cases h3 : c.toNat < 65536
      · have he : utf8EncodeChar c.toNat =
            [224 + c.toNat / 4096, 128 + c.toNat / 64 % 64, 128 + c.toNat % 64] := by
          rw [utf8EncodeChar, if_neg h1, if_neg h2, if_pos h3]
        rw [he]
        simp only [List.cons_append, List.nil_append]
        have hc3 : cont3First (224 + c.toNat / 4096) (128 + c.toNat / 64 % 64) := by
          unfold cont3First
          omega
        rw [decode_three _ _ _ _ (by omega) (by omega) ⟨hc3, by omega, by omega⟩]
        have hval : (224 + c.toNat / 4096 - 224) * 4096 + (128 + c.toNat / 64 % 64 - 128) * 64 +
            (128 + c.toNat % 64 - 128) = c.toNat := by
          omega
        rw [hval, hofn]
      · have he : utf8EncodeChar c.toNat =
            [240 + c.toNat / 262144, 128 + c.toNat / 4096 % 64, 128 + c.toNat / 64 % 64,
              128 + c.toNat % 64] := by
          rw [utf8EncodeChar, if_neg h1, if_neg h2, if_neg h3]
        rw [he]
        simp only [List.cons_append, List.nil_append]
        have hc4 : cont4First (240 + c.toNat / 262144) (128 + c.toNat / 4096 % 64) := by
          unfold cont4First
          omega
        rw [decode_four _ _ _ _ _ (by omega) (by omega) ⟨hc4, by omega, by omega⟩]
        have hval : (240 + c.toNat / 262144 - 240) * 262144 + (128 + c.toNat / 4096 % 64 - 128) * 4096 +
            (128 + c.toNat / 64 % 64 - 128) * 64 + (128 + c.toNat % 64 - 128) = c.toNat := by
          omega
        rw [hval, hofn]

theorem utf8DecodeIgnore_encodeList (cs : List Char) (rest : List Nat) :
    utf8DecodeIgnore (utf8EncodeList cs ++ rest) = cs ++ utf8DecodeIgnore rest := by
  induction cs with
  | nil => simp [utf8EncodeList]
  | cons c cs ih =>
      have hstep : utf8EncodeList (c :: cs) = utf8EncodeChar c.toNat ++ utf8EncodeList cs := by
        simp [utf8EncodeList]
      rw [hstep, List.append_assoc, utf8DecodeIgnore_encodeChar, ih]
      rfl

theorem utf8DecodeIgnore_encodeList_nil (cs : List Char) :
    utf8DecodeIgnore (utf8EncodeList cs) = cs := by
  have h := utf8DecodeIgnore_encodeList cs []
  rw [List.append_nil] at h
  rw [h]
  simp [utf8DecodeIgnore, decodeGo]

/-- The worker of the TXT-chunking loop, structurally recursive on a fuel
that is at least the number of remaining bytes. -/
def chunkGo : Nat → List Nat → List String
  | 0, _ => []
  | _ + 1, [] => []
  | fuel + 1, b :: bs =>
      String.mk (utf8DecodeIgnore ((b :: bs).take 255)) :: chunkGo fuel ((b :: bs).drop 255)

/-- The TXT-chunking loop of `create_dns_response`:
`while encoded: chunks.append(encoded[:255].decode("utf-8", errors="ignore")); encoded = encoded[255:]`. -/
def chunkBytes (bs : List Nat) : List String := chunkGo bs.length bs

theorem chunkGo_nil (n : Nat) : chunkGo n [] = [] := by cases n <;> rfl

theorem chunkGo_fuel :
    ∀ (n : Nat) (l : List Nat), l.length ≤ n → chunkGo n l = chunkBytes l := by
  intro n
  induction n using Nat.strong_induction_on with
  | _ n ih =>
      intro l hl
      match n, l with
      | 0, [] => rfl
      | k + 1, [] => rw [chunkGo_nil]; rfl
      | k + 1, b :: bs =>
          rw [List.length_cons] at hl
          show chunkGo (k + 1) (b :: bs) = chunkGo (bs.length + 1) (b :: bs)
          simp only [chunkGo]
          have hdl : ((b :: bs).drop 255).length ≤ k := by
            simp only [List.length_drop, List.length_cons]; omega
          have hdl2 : ((b :: bs).drop 255).length ≤ bs.length := by
            simp only [List.length_drop, List.length_cons]; omega
          rw [ih k (by omega) _ hdl, ih bs.length (by omega) _ hdl2]

theorem chunkBytes_cons (b : Nat) (bs : List Nat) :
    chunkBytes (b :: bs) =
      String.mk (utf8DecodeIgnore ((b :: bs).take 255)) :: chunkBytes ((b :: bs).drop 255) := by
  show chunkGo (bs.length + 1) (b :: bs) = _
  simp only [chunkGo]
  rw [chunkGo_fuel bs.length _ (by simp only [List.length_drop, List.length_cons]; omega)]

/-- The chunking of one TXT line: split its UTF-8 encoding into 255-byte
pieces and decode each piece with `errors="ignore"`. -/
def chunk (txt : String) : List String := chunkBytes (utf8EncodeList txt.data)

theorem utf8EncodeChar_ne_nil (n : Nat) : utf8EncodeChar n ≠ [] := by
  rw [utf8EncodeChar]
  split_ifs <;> simp

theorem chunkBytes_single (bs : List Nat) (hne : bs ≠ []) (hlen : bs.length ≤ 255) :
    chunkBytes bs = [String.mk (utf8DecodeIgnore bs)] := by
  match bs with
  | [] => exact absurd rfl hne
  | b :: rest =>
      rw [chunkBytes_cons]
      rw [List.take_of_length_le hlen, List.drop_eq_nil_of_le hlen]
      rfl

theorem chunk_single (s : String) (hne : s.data ≠ []) (hlen : utf8Len s ≤ 255) :
    chunk s = [s] := by
  unfold chunk
  have henc : utf8EncodeList s.data ≠ [] := by
    match h : s.data with
    | [] => exact absurd h hne
    | c :: cs =>
        have : utf8EncodeList (c :: cs) = utf8EncodeChar c.toNat ++ utf8EncodeList cs := by
          simp [utf8EncodeList]
        rw [this]
        simp [utf8EncodeChar_ne_nil]
  rw [chunkBytes_single _ henc hlen, utf8DecodeIgnore_encodeList_nil]

theorem chunkBytes_length_aux :
    ∀ (n : Nat) (bs : List Nat), bs.length ≤ n →
      (chunkBytes bs).length = (bs.length + 254) / 255 := by
  intro n
  induction n with
  | zero =>
      intro bs h
      match bs with
      | [] => simp [chunkBytes, chunkGo]
      | b :: rest => simp at h
  | succ n ih =>
      intro bs h
      match bs with
      | [] => simp [chunkBytes, chunkGo]
      | b :: rest =>
          rw [chunkBytes_cons]
          rw [List.length_cons] at h
          have hlen2 : ((b :: rest).drop 255).length = rest.length + 1 - 255 := by simp
          have hrec := ih ((b :: rest).drop 255) (by rw [hlen2]; omega)
          rw [List.length_cons, hrec, hlen2, List.length_cons]
          omega

theorem chunk_length (s : String) :
    (chunk s).length = ((utf8EncodeList s.data).length + 254) / 255 :=
  chunkBytes_length_aux _ _ (Nat.le_refl _)

theorem encList_cons (c : Char) (cs : List Char) :
    utf8EncodeList (c :: cs) = utf8EncodeChar c.toNat ++ utf8EncodeList cs := by
  simp [utf8EncodeList]

theorem decode_skip_cont (b : Nat) (bs : List Nat) (h1 : 128 ≤ b) (h2 : b < 194) :
    utf8DecodeIgnore (b :: bs) = utf8DecodeIgnore bs := by
  have hA : ¬ b < 128 := by omega
  unfold utf8DecodeIgnore
  simp only [List.length_cons]
  simp only [decodeGo]
  rw [if_neg hA, if_pos h2]

theorem decode_skip_high (b : Nat) (bs : List Nat) (h : 245 ≤ b) :
    utf8DecodeIgnore (b :: bs) = utf8DecodeIgnore bs := by
  have hA : ¬ b < 128 := by omega
  have hB : ¬ b < 194 := by omega
  have hC : ¬ b < 224 := by omega
  have hD : ¬ b < 240 := by omega
  have hE : ¬ b < 245 := by omega
  unfold utf8DecodeIgnore
  simp only [List.length_cons]
  simp only [decodeGo]
  rw [if_neg hA, if_neg hB, if_neg hC, if_neg hD, if_neg hE]

theorem decode_two_end (b : Nat) (h2 : 194 ≤ b) (h3 : b < 224) :
    utf8DecodeIgnore [b] = [] := by
  have hA : ¬ b < 128 := by omega
  have hB : ¬ b < 194 := by omega
  unfold utf8DecodeIgnore
  simp only [List.length_cons]
  simp only [decodeGo]
  rw [if_neg hA, if_neg hB, if_pos h3]

theorem decode_two_bad (b b1 : Nat) (bs : List Nat) (h2 : 194 ≤ b) (h3 : b < 224)
    (hc : ¬(128 ≤ b1 ∧ b1 < 192)) :
    utf8DecodeIgnore (b :: b1 :: bs) = utf8DecodeIgnore (b1 :: bs) := by
  have hA : ¬ b < 128 := by omega
  have hB : ¬ b < 194 := by omega
  unfold utf8DecodeIgnore
  simp only [List.length_cons]
  simp only [decodeGo]
  rw [if_neg hA, if_neg hB, if_pos h3, if_neg hc]

theorem decode_three_end (b : Nat) (h2 : 224 ≤ b) (h3 : b < 240) :
    utf8DecodeIgnore [b] = [] := by
  have hA : ¬ b < 128 := by omega
  have hB : ¬ b < 194 := by omega
  have hC : ¬ b < 224 := by omega
  unfold utf8DecodeIgnore
  simp only [List.length_cons]
  simp only [decodeGo]
  rw [if_neg hA, if_neg hB, if_neg hC, if_pos h3]

theorem decode_three_one (b b1 : Nat) (h2 : 224 ≤ b) (h3 : b < 240) :
    utf8DecodeIgnore [b, b1] = if cont3First b b1 then [] else utf8DecodeIgnore [b1] := by
  have hA : ¬ b < 128 := by omega
  have hB : ¬ b < 194 := by omega
  have hC : ¬ b < 224 := by omega
  unfold utf8DecodeIgnore
  simp only [List.length_cons]
  simp only [decodeGo]
  rw [if_neg hA, if_neg hB, if_neg hC, if_pos h3]

theorem decode_three_bad (b b1 b2 : Nat) (bs : List Nat) (h2 : 224 ≤ b) (h3 : b < 240)
    (hc : ¬(cont3First b b1 ∧ 128 ≤ b2 ∧ b2 < 192)) :
    utf8DecodeIgnore (b :: b1 :: b2 :: bs) = utf8DecodeIgnore (b1 :: b2 :: bs) := by
  have hA : ¬ b < 128 := by omega
  have hB : ¬ b < 194 := by omega
  have hC : ¬ b < 224 := by omega
  unfold utf8DecodeIgnore
  simp only [List.length_cons]
  simp only [decodeGo]
  rw [if_neg hA, if_neg hB, if_neg hC, if_pos h3, if_neg hc]

theorem decode_four_end (b : Nat) (h2 : 240 ≤ b) (h3 : b < 245) :
    utf8DecodeIgnore [b] = [] := by
  have hA : ¬ b < 128 := by omega
  have hB : ¬ b < 194 := by omega
  have hC : ¬ b < 224 := by omega
  have hD : ¬ b < 240 := by omega
  unfold utf8DecodeIgnore
  simp only [List.length_cons]
  simp only [decodeGo]
  rw [if_neg hA, if_neg hB, if_neg hC, if_neg hD, if_pos h3]

theorem decode_four_one (b b1 : Nat) (h2 : 240 ≤ b) (h3 : b < 245) :
    utf8DecodeIgnore [b, b1] = if cont4First b b1 then [] else utf8DecodeIgnore [b1] := by
  have hA : ¬ b < 128 := by omega
  have hB : ¬ b < 194 := by omega
  have hC : ¬ b < 224 := by omega
  have hD : ¬ b < 240 := by omega
  unfold utf8DecodeIgnore
  simp only [List.length_cons]
  simp only [decodeGo]
  rw [if_neg hA, if_neg hB, if_neg hC, if_neg hD, if_pos h3]

theorem decode_four_two (b b1 b2 : Nat) (h2 : 240 ≤ b) (h3 : b < 245) :
    utf8DecodeIgnore [b, b1, b2] =
      if cont4First b b1 ∧ 128 ≤ b2 ∧ b2 < 192 then [] else utf8DecodeIgnore [b1, b2] := by
  have hA : ¬ b < 128 := by omega
  have hB : ¬ b < 194 := by omega
  have hC : ¬ b < 224 := by omega
  have hD : ¬ b < 240 := by omega
  unfold utf8DecodeIgnore
  simp only [List.length_cons]
  simp only [decodeGo]
  rw [if_neg hA, if_neg hB, if_neg hC, if_neg hD, if_pos h3]

theorem decode_four_bad (b b1 b2 b3 : Nat) (bs : List Nat) (h2 : 240 ≤ b) (h3 : b < 245)
    (hc : ¬(cont4First b b1 ∧ (128 ≤ b2 ∧ b2 < 192) ∧ (128 ≤ b3 ∧ b3 < 192))) :
    utf8DecodeIgnore (b :: b1 :: b2 :: b3 :: bs) = utf8DecodeIgnore (b1 :: b2 :: b3 :: bs) := by
  have hA : ¬ b < 128 := by omega
  have hB : ¬ b < 194 := by omega
  have hC : ¬ b < 224 := by omega
  have hD : ¬ b < 240 := by omega
  unfold utf8DecodeIgnore
  simp only [List.length_cons]
  simp only [decodeGo]
  rw [if_neg hA, if_neg hB, if_neg hC, if_neg hD, if_pos h3, if_neg hc]

theorem utf8EncodeChar_len1 (v : Nat) (h : v < 128) : (utf8EncodeChar v).length = 1 := by
  rw [utf8EncodeChar, if_pos h]
  rfl

theorem utf8EncodeChar_len2 (v : Nat) (h1 : 128 ≤ v) (h2 : v < 2048) :
    (utf8EncodeChar v).length = 2 := by
  rw [utf8EncodeChar, if_neg (by omega), if_pos h2]
  rfl

theorem utf8EncodeChar_len3 (v : Nat) (h1 : 2048 ≤ v) (h2 : v < 65536) :
    (utf8EncodeChar v).length = 3 := by
  rw [utf8EncodeChar, if_neg (by omega), if_neg (by omega), if_pos h2]
  rfl

theorem utf8EncodeChar_len4 (v : Nat) (h1 : 65536 ≤ v) :
    (utf8EncodeChar v).length = 4 := by
  rw [utf8EncodeChar, if_neg (by omega), if_neg (by omega), if_neg (by omega)]
  rfl

theorem encList_decode_le :
    ∀ (n : Nat) (bs : List Nat), bs.length ≤ n →
      (utf8EncodeList (utf8DecodeIgnore bs)).length ≤ bs.length := by
  intro n
  induction n with
  | zero =>
      intro bs h
      match bs with
      | [] => simp [utf8DecodeIgnore, decodeGo, utf8EncodeList]
      | b :: rest => simp at h
  | succ n ih =>
      intro bs h
      match bs with
      | [] => simp [utf8DecodeIgnore, decodeGo, utf8EncodeList]
      | b :: bs1 =>
          rw [List.length_cons] at h
          by_cases h1 : b < 128
          · rw [decode_ascii _ _ h1, encList_cons,
              char_toNat_ofNat (Or.inl (by omega : b < 55296))]
            have hlen := utf8EncodeChar_len1 b h1
            have hrec := ih bs1 (by omega)
            rw [List.length_append, hlen, List.length_cons]
            omega
          · by_cases h2 : b < 194
            · rw [decode_skip_cont _ _ (by omega) h2]
              have hrec := ih bs1 (by omega)
              rw [List.length_cons]
              omega
            · by_cases h3 : b < 224
              · match bs1 with
                | [] => rw [decode_two_end _ (by omega) h3]; simp [utf8EncodeList]
                | b1 :: bs2 =>
                    rw [List.length_cons] at h
                    by_cases hc : 128 ≤ b1 ∧ b1 < 192
                    · rw [decode_two _ _ _ (by omega) h3 hc, encList_cons,
                        char_toNat_ofNat (Or.inl (by omega : (b - 192) * 64 + (b1 - 128) < 55296))]
                      have hlen := utf8EncodeChar_len2 ((b - 192) * 64 + (b1 - 128))
                        (by omega) (by omega)
                      have hrec := ih bs2 (by omega)
                      rw [List.length_append, hlen, List.length_cons, List.length_cons]
                      omega
                    · rw [decode_two_bad _ _ _ (by omega) h3 hc]
                      have hrec := ih (b1 :: bs2) (by rw [List.length_cons]; omega)
                      rw [List.length_cons] at hrec ⊢
                      rw [List.length_cons]
                      omega
              · by_cases h4 : b < 240
                · match bs1 with
                  | [] => rw [decode_three_end _ (by omega) h4]; simp [utf8EncodeList]
                  | [b1] =>
                      rw [decode_three_one _ _ (by omega) h4]
                      split
                      · simp [utf8EncodeList]
                      · have hrec := ih [b1] (by simp at h ⊢; omega)
                        simp at hrec ⊢
                        omega
                  | b1 :: b2 :: bs2 =>
                      rw [List.length_cons, List.length_cons] at h
                      by_cases hc : cont3First b b1 ∧ 128 ≤ b2 ∧ b2 < 192
                      · have hcc := hc.1
                        unfold cont3First at hcc
                        have hb1 : 128 ≤ b1 ∧ b1 < 192 := by
                          rcases hcc with ⟨hx, hy, hz⟩
                          by_cases hb224 : b = 224
                          · have := hx hb224; omega
                          · by_cases hb237 : b = 237
                            · have := hy hb237; omega
                            · exact hz hb224 hb237
                        have hval : ((b - 224) * 4096 + (b1 - 128) * 64 + (b2 - 128)).isValidChar := by
                          rcases hcc with ⟨hx, hy, hz⟩
                          by_cases hb237 : b = 237
                          · exact Or.inl (by have := hy hb237; omega)
                          · by_cases hb238 : 238 ≤ b
                            · exact Or.inr (by omega)
                            · exact Or.inl (by omega)
                        have h2048 : 2048 ≤ (b - 224) * 4096 + (b1 - 128) * 64 + (b2 - 128) := by
                          rcases hcc with ⟨hx, hy, hz⟩
                          by_cases hb224 : b = 224
                          · have := hx hb224; omega
                          · omega
                        rw [decode_three _ _ _ _ (by omega) h4 hc, encList_cons,
                          char_toNat_ofNat hval]
                        have hlen := utf8EncodeChar_len3 _ h2048 (by omega)
                        have hrec := ih bs2 (by omega)
                        rw [List.length_append, hlen, List.length_cons, List.length_cons,
                          List.length_cons]
                        omega
                      · rw [decode_three_bad _ _ _ _ (by omega) h4 hc]
                        have hrec := ih (b1 :: b2 :: bs2)
                          (by rw [List.length_cons, List.length_cons]; omega)
                        rw [List.length_cons, List.length_cons] at hrec
                        rw [List.length_cons, List.length_cons, List.length_cons]
                        omega
                · by_cases h5 : b < 245
                  · match bs1 with
                    | [] => rw [decode_four_end _ (by omega) h5]; simp [utf8EncodeList]
                    | [b1] =>
                        rw [decode_four_one _ _ (by omega) h5]
                        split
                        · simp [utf8EncodeList]
                        · have hrec := ih [b1] (by simp at h ⊢; omega)
                          simp at hrec ⊢
                          omega
                    | [b1, b2] =>
                        rw [decode_four_two _ _ _ (by omega) h5]
                        split
                        · simp [utf8EncodeList]
                        · have hrec := ih [b1, b2] (by simp at h ⊢; omega)
                          simp at hrec ⊢
                          omega
                    | b1 :: b2 :: b3 :: bs2 =>
                        rw [List.length_cons, List.length_cons, List.length_cons] at h
                        by_cases hc : cont4First b b1 ∧ (128 ≤ b2 ∧ b2 < 192) ∧
                            (128 ≤ b3 ∧ b3 < 192)
                        · have hcc := hc.1
                          unfold cont4First at hcc
                          have hb1 : 128 ≤ b1 ∧ b1 < 192 := by
                            rcases hcc with ⟨hx, hy, hz⟩
                            by_cases hb240 : b = 240
                            · have := hx hb240; omega
                            · by_cases hb244 : b = 244
                              · have := hy hb244; omega
                              · exact hz hb240 hb244
                          have hval : ((b - 240) * 262144 + (b1 - 128) * 4096 + (b2 - 128) * 64 +
                              (b3 - 128)).isValidChar := by
                            rcases hcc with ⟨hx, hy, hz⟩
                            refine Or.inr ⟨by omega, ?_⟩
                            by_cases hb244 : b = 244
                            · have := hy hb244; omega
                            · omega
                          have h65536 : 65536 ≤ (b - 240) * 262144 + (b1 - 128) * 4096 +
                              (b2 - 128) * 64 + (b3 - 128) := by
                            rcases hcc with ⟨hx, hy, hz⟩
                            by_cases hb240 : b = 240
                            · have := hx hb240; omega
                            · omega
                          rw [decode_four _ _ _ _ _ (by omega) h5 hc, encList_cons,
                            char_toNat_ofNat hval]
                          have hlen := utf8EncodeChar_len4 _ h65536
                          have hrec := ih bs2 (by omega)
                          rw [List.length_append, hlen, List.length_cons, List.length_cons,
                            List.length_cons, List.length_cons]
                          omega
                        · rw [decode_four_bad _ _ _ _ _ (by omega) h5 hc]
                          have hrec := ih (b1 :: b2 :: b3 :: bs2)
                            (by rw [List.length_cons, List.length_cons, List.length_cons]; omega)
                          rw [List.length_cons, List.length_cons, List.length_cons] at hrec
                          rw [List.length_cons, List.length_cons, List.length_cons,
                            List.length_cons]
                          omega
                  · rw [decode_skip_high _ _ (by omega)]
                    have hrec := ih bs1 (by omega)
                    rw [List.length_cons]
                    omega

/-- Pieces of the chunking loop re-encode to at most the piece's byte count. -/
theorem chunkBytes_piece_le :
    ∀ (n : Nat) (bs : List Nat) (p : String), bs.length ≤ n → p ∈ chunkBytes bs →
      utf8Len p ≤ 255 := by
  intro n
  induction n with
  | zero =>
      intro bs p h hp
      match bs with
      | [] => simp [chunkBytes, chunkGo] at hp
      | b :: rest => simp at h
  | succ n ih =>
      intro bs p h hp
      match bs with
      | [] => simp [chunkBytes, chunkGo] at hp
      | b :: rest =>
          rw [chunkBytes_cons] at hp
          rcases List.mem_cons.mp hp with hhead | htail
          · subst hhead
            unfold utf8Len
            have h1 := encList_decode_le (((b :: rest).take 255).length) ((b :: rest).take 255)
              (Nat.le_refl _)
            have h2 : ((b :: rest).take 255).length ≤ 255 := by simp
            exact le_trans h1 h2
          · exact ih ((b :: rest).drop 255) p (by simp at h ⊢; omega) htail

/-- Each chunk produced by the TXT chunking re-encodes to at most 255 bytes. -/
theorem chunk_piece_le (s : String) (p : String) (hp : p ∈ chunk s) : utf8Len p ≤ 255 := by
  unfold chunk at hp
  exact chunkBytes_piece_le _ _ p (Nat.le_refl _) hp

/-- A fully parsed talk record, as built by `parse_talks` (fields `date`,
`title`, `persons` and `track` of `single_talk`). -/
structure Talk where
  date : String
  title : String
  persons : List String
  track : String
deriving DecidableEq

/-- A raw person entry of the dataset; `public_name` missing models a KeyError. -/
structure RawPerson where
  public_name : Option String
deriving DecidableEq

/-- A raw talk object of the dataset JSON; `none` fields model missing keys. -/
structure RawTalk where
  date : Option String
  title : Option String
  persons : Option (List RawPerson)
  guid : Option String
deriving DecidableEq

/-- One day of the dataset: a mapping from room name to its list of talks. -/
structure Day where
  rooms : List (String × List RawTalk)
deriving DecidableEq

structure Conference where
  days : List Day
deriving DecidableEq

structure ScheduleWrap where
  conference : Conference
deriving DecidableEq

/-- The dataset JSON document (`data['schedule']['conference']['days']`). -/
structure Data where
  schedule : ScheduleWrap
deriving DecidableEq

/-- The schedule store built by `parse_talks`: the `(start, end, track) -> guid`
time index dict and the `guid -> talk` dict, both in insertion order. -/
structure Store where
  time_wise : List ((String × String × String) × String)
  talks : List (String × Talk)
deriving DecidableEq

/-- The three room keys read by `parse_talks`. -/
def trackNames : List String := ["Track 1", "Track 2", "Track 3"]

/-- The exact sequence of (day, track, talk index) triples the
`for day in [1,2]: for track in [...]: for talk in range(7)` loops visit. -/
def accessList : List (Nat × String × Nat) :=
  [1, 2].flatMap fun d => trackNames.flatMap fun t => (List.range 7).map fun i => (d, t, i)

/-- `data['schedule']['conference']['days'][day]['rooms'][track][talk]`:
IndexError on a bad list index, KeyError on a missing room key. -/
def fetchRaw (data : Data) (d : Nat) (t : String) (i : Nat) : Except PyErr RawTalk := do
  let day ← orFail (data.schedule.conference.days.get? d) .indexError
  let room ← orFail (assocLookup day.rooms t) (.keyError t)
  orFail (room.get? i) .indexError

/-- `get_time`: parse the start string, add the 30-minute slot, and return
`(start_time_str, end_time_str, track)`.  `fromisoformat` failure is a
ValueError; adding past year 9999 is an OverflowError. -/
def get_time (start_time_str : String) (track : String) :
    Except PyErr (String × String × String) := do
  let start_time ← orFail (fromisoformat start_time_str) .valueError
  let end_time := add30 start_time
  if end_time.year > 9999 then .error .overflowError
  else .ok (start_time_str, isoformat end_time, track)

/-- `[temp_data['persons'][value]['public_name'] for value in range(count)]`. -/
def personsNames : List RawPerson → Except PyErr (List String)
  | [] => .ok []
  | p :: ps => do
      let name ← orFail p.public_name (.keyError "public_name")
      let rest ← personsNames ps
      .ok (name :: rest)

/-- One iteration of the `parse_talks` triple loop: fetch the raw talk and
produce the time-index key, the guid and the `single_talk` record, raising in
the same order the Python statements do (date, timestamp parse, guid, title,
persons). -/
def stepCore (data : Data) (tr : Nat × String × Nat) :
    Except PyErr ((String × String × String) × String × Talk) := do
  let raw ← fetchRaw data tr.1 tr.2.1 tr.2.2
  let dateStr ← orFail raw.date (.keyError "date")
  let tup ← get_time dateStr tr.2.1
  let guid ← orFail raw.guid (.keyError "guid")
  let title ← orFail raw.title (.keyError "title")
  let persons ← orFail raw.persons (.keyError "persons")
  let names ← personsNames persons
  .ok (tup, guid, ⟨dateStr, title, names, tr.2.1⟩)

/-- The two dict assignments of one loop iteration:
`time_wise_talk[tup_time] = guid` and `talks[guid] = single_talk.copy()`. -/
def stepIns (st : Store) (x : (String × String × String) × String × Talk) : Store :=
  ⟨dictInsert st.time_wise x.1 x.2.1, dictInsert st.talks x.2.1 x.2.2⟩

def parseGo (data : Data) : List (Nat × String × Nat) → Store → Except PyErr Store
  | [], st => .ok st
  | tr :: rest, st =>
      match stepCore data tr with
      | .error e => .error e
      | .ok x => parseGo data rest (stepIns st x)

/-- `parse_talks`: run the triple loop over days 1 and 2, the three tracks and
talk indices 0..6, returning `(time_wise_talk, talks)`.  `load_schedule` is
this function applied to the decoded JSON file (file I/O itself is out of the
modelled core). -/
def parse_talks (data : Data) : Except PyErr Store := parseGo data accessList ⟨[], []⟩

/-- The loop body of `get_current_talks` over the time index. -/
def currentGo (talks : List (String × Talk)) (now : DT) :
    List ((String × String × String) × String) → Except PyErr (List Talk)
  | [] => .ok []
  | (k, tid) :: rest => do
      let s ← orFail (fromisoformat k.1) .valueError
      let e ← orFail (fromisoformat k.2.1) .valueError
      if instantSec s ≤ instantSec now ∧ instantSec now < instantSec e then do
        let talk ← orFail (assocLookup talks tid) (.keyError tid)
        let tail ← currentGo talks now rest
        .ok (talk :: tail)
      else currentGo talks now rest

/-- `get_current_talks(now_str)`: all talks whose `[start, end)` window
contains the parsed reference time. -/
def get_current_talks (store : Store) (now_str : String) : Except PyErr (List Talk) := do
  let now ← orFail (fromisoformat now_str) .valueError
  currentGo store.talks now store.time_wise

/-- The `upcoming` collection loop of `get_next_talks`: parsed starts strictly
after `now`, keeping `(start, track, talk_id)` in index order.  Only the
instant of the start is used downstream (Python compares and min-imises
aware datetimes by instant). -/
def upcomingGo (now : DT) :
    List ((String × String × String) × String) → Except PyErr (List (Int × String × String))
  | [] => .ok []
  | (k, tid) :: rest => do
      let s ← orFail (fromisoformat k.1) .valueError
      let tail ← upcomingGo now rest
      if instantSec now < instantSec s then .ok ((instantSec s, k.2.2, tid) :: tail)
      else .ok tail

/-- `min(start for start, _, _ in upcoming)`. -/
def minStart : Int → List (Int × String × String) → Int
  | acc, [] => acc
  | acc, x :: rest => minStart (min acc x.1) rest

/-- The dict comprehension of `get_next_talks`: for each upcoming entry at the
earliest start, `result[track] = talks[talk_id]` (later same-track entries
overwrite, keeping the first insertion position, as Python dicts do). -/
def resultGo (talks : List (String × Talk)) (m : Int) :
    List (Int × String × String) → List (String × Talk) → Except PyErr (List (String × Talk))
  | [], acc => .ok acc
  | (i, tr, tid) :: rest, acc =>
      if i = m then
        match assocLookup talks tid with
        | none => .error (.keyError tid)
        | some talk => resultGo talks m rest (dictInsert acc tr talk)
      else resultGo talks m rest acc

/-- `get_next_talks(now_str)`: the track-to-talk dict of all talks at the
earliest start strictly after the reference time; empty dict if none. -/
def get_next_talks (store : Store) (now_str : String) :
    Except PyErr (List (String × Talk)) := do
  let now ← orFail (fromisoformat now_str) .valueError
  let upcoming ← upcomingGo now store.time_wise
  match upcoming with
  | [] => .ok []
  | u :: us => resultGo store.talks (minStart u.1 us) (u :: us) []

/-- The filter loop of `get_track_talks`. -/
def trackGo (talks : List (String × Talk)) (track_num : String) :
    List ((String × String × String) × String) → Except PyErr (List Talk)
  | [] => .ok []
  | (k, tid) :: rest =>
      if k.2.2 = track_num then do
        let talk ← orFail (assocLookup talks tid) (.keyError tid)
        let tail ← trackGo talks track_num rest
        .ok (talk :: tail)
      else trackGo talks track_num rest

/-- `get_track_talks(track_num)`: talks of the given track in time-index
iteration order (no sorting is performed by the source). -/
def get_track_talks (store : Store) (track_num : String) : Except PyErr (List Talk) :=
  trackGo store.talks track_num store.time_wise

/-- A Python value appearing in the `answers` list of `handle_dns_query`:
either a talk dict or a bare string (the fallback help text). -/
inductive PyTalkVal where
  | dict (t : Talk)
  | str (s : String)
deriving DecidableEq

/-- `datetime.strftime("%H:%M")`. -/
def strftimeHM (dt : DT) : String :=
  String.mk (pad2l dt.hour) ++ ":" ++ String.mk (pad2l dt.minute)

/-- `", ".join(names)`. -/
def joinComma : List String → String
  | [] => ""
  | [s] => s
  | s :: rest => s ++ ", " ++ joinComma rest

/-- `talks_to_txt_rdata`: format each talk dict as
`Track | HH:MM–HH:MM | Title — Speakers`.  Indexing `t["date"]` on a plain
string element raises TypeError, exactly as Python does when the handler
passes the help string through this function. -/
def talks_to_txt_rdata : List PyTalkVal → Except PyErr (List String)
  | [] => .ok []
  | .str _ :: _ => .error (.typeError "string indices must be integers")
  | .dict t :: rest => do
      let start_dt ← orFail (fromisoformat t.date) .valueError
      let end_dt := add30 start_dt
      if end_dt.year > 9999 then .error .overflowError
      else do
        let joined := joinComma t.persons
        let speakers := if joined = "" then "TBA" else joined
        let line := t.track ++ " | " ++ strftimeHM start_dt ++ "–" ++ strftimeHM end_dt ++
          " | " ++ t.title ++ " — " ++ speakers
        let tail ← talks_to_txt_rdata rest
        .ok (line :: tail)

/-- The network layer of a sniffed packet: IPv4, IPv6, or something else. -/
inductive NetLayer where
  | ip4 (src dst : String)
  | ip6 (src dst : String)
  | other
deriving DecidableEq

/-- The fields of an inbound packet that the handler reads. -/
structure Packet where
  hasDNS : Bool
  dnsId : Nat
  qname : String
  net : NetLayer
  sport : Nat
  dport : Nat
deriving DecidableEq

/-- TXT RDATA: scapy stores a single chunk as a scalar and several chunks as
a list (`chunks if len(chunks) > 1 else chunks[0]`). -/
inductive RData where
  | single (s : String)
  | multi (l : List String)
deriving DecidableEq

/-- One DNSRR TXT answer record. -/
structure RR where
  rrname : String
  rtype : String
  ttl : Nat
  rdata : RData
deriving DecidableEq

/-- The assembled spoofed reply (IP/UDP/DNS fields the source sets). -/
structure Response where
  ipSrc : String
  ipDst : String
  sport : Nat
  dport : Nat
  dnsId : Nat
  qr : Bool
  aa : Bool
  qdname : String
  an : List RR
deriving DecidableEq

/-- The TXT RR construction loop of `create_dns_response`, including the
chunking of each record; `chunks[0]` on an empty chunk list raises IndexError. -/
def mkRRs (qname : String) : List String → Except PyErr (List RR)
  | [] => .ok []
  | txt :: rest => do
      let rdata ← match chunk txt with
        | [] => .error PyErr.indexError
        | [c] => .ok (RData.single c)
        | cs => .ok (RData.multi cs)
      let tail ← mkRRs qname rest
      .ok (⟨qname, "TXT", 60, rdata⟩ :: tail)

/-- `create_dns_response`: the self-traffic guard, the network-layer check and
the reply assembly.  Returning `.ok none` models "no packet sent"; returning
`.ok (some r)` models sending `r`.  On an IPv6 packet the source evaluates
`query_packet[IP].src` (line 179) even though no IPv4 layer is present, so
scapy raises IndexError before the IPv6 guard can run. -/
def create_dns_response (port : Nat) (query_packet : Packet) (txt_records : List String) :
    Except PyErr (Option Response) :=
  match query_packet.net with
  | .ip4 src dst =>
      if src = "127.0.0.1" ∧ query_packet.sport = port then .ok none
      else do
        let rrs ← mkRRs query_packet.qname txt_records
        .ok (some ⟨dst, src, query_packet.dport, query_packet.sport, query_packet.dnsId,
          true, true, query_packet.qname, rrs⟩)
  | .ip6 _ _ => .error .indexError
  | .other => .ok none

/-- Is `pat` a prefix of `l`? -/
def startsWithList : List Char → List Char → Bool
  | [], _ => true
  | _ :: _, [] => false
  | a :: as, b :: bs => a == b && startsWithList as bs

/-- Does `l` contain `pat` as a contiguous run? -/
def hasSubList (pat : List Char) : List Char → Bool
  | [] => match pat with | [] => true | _ :: _ => false
  | b :: rest => startsWithList pat (b :: rest) || hasSubList pat rest

/-- `str.lower()` (the query names the server inspects are ASCII). -/
def pyLower (s : String) : String := String.mk (s.data.map Char.toLower)

/-- Python's `pattern in query` substring test. -/
def containsSub (s pat : String) : Bool := hasSubList pat.data s.data

/-- `handle_dns_query`: route on the lowercased question name.  The `now.talks`
and `next.talks` branches call `get_current_talks()` / `get_next_talks()`
without the required `now_str` argument (source lines 152 and 154), so Python
raises TypeError there; no reference timestamp is ever passed. -/
def handle_dns_query (port : Nat) (store : Store) (packet : Packet) :
    Except PyErr (Option Response) :=
  if packet.hasDNS then
    let query := pyLower packet.qname
    if containsSub query "now.talks" then
      .error (.typeError "get_current_talks() missing 1 required positional argument: now_str")
    else if containsSub query "next.talks" then
      .error (.typeError "get_next_talks() missing 1 required positional argument: now_str")
    else if containsSub query "track1.talks" then do
      let answers ← get_track_talks store "Track 1"
      let txts ← talks_to_txt_rdata (answers.map PyTalkVal.dict)
      create_dns_response port packet txts
    else do
      let txts ← talks_to_txt_rdata [PyTalkVal.str "Query the PyCon schedule with DNS!"]
      create_dns_response port packet txts
  else .ok none

/-- The one-talk schedule of the spec's end-to-end scenarios 1 and 2. -/
def scenarioTalk : Talk := ⟨"2025-09-13T10:10:00+05:30", "Intro", [], "Track 1"⟩

def scenarioStore : Store :=
  ⟨[(("2025-09-13T10:10:00+05:30", "2025-09-13T10:40:00+05:30", "Track 1"), "t1")],
   [("t1", scenarioTalk)]⟩

/-- An IPv4 client query packet for the given name. -/
def clientPacket (qn : String) : Packet :=
  ⟨true, 7, qn, .ip4 "10.0.0.5" "127.0.0.1", 53444, 3333⟩

/-- C1: the claimed end-to-end Now behaviour does not happen.  The formatter
alone would indeed produce the claimed TXT line for the scenario talk, but
`handle_dns_query` calls `get_current_talks()` with no `now_str` argument, so
every `now.talks` query raises TypeError and no response is built; in
particular the packet's arrival time is never used as a reference timestamp. -/
theorem c1_now_query_crashes :
    talks_to_txt_rdata [PyTalkVal.dict scenarioTalk] =
        .ok ["Track 1 | 10:10–10:40 | Intro — TBA"] ∧
    handle_dns_query 3333 scenarioStore (clientPacket "now.talks.example.") =
      .error (.typeError "get_current_talks() missing 1 required positional argument: now_str") := by
  constructor
  · decide
  · decide

/-- C2: a query whose name matches no recognized pattern does not get the help
TXT line: the handler passes the bare help string through `talks_to_txt_rdata`,
which indexes it like a dict (`t["date"]`) and raises TypeError, so no
response is built. -/
theorem c2_unknown_query_crashes :
    handle_dns_query 3333 scenarioStore (clientPacket "hello.example.") =
      .error (.typeError "string indices must be integers") := by
  decide

/-- C3: the claimed end-to-end Next behaviour does not happen.  The store
operation itself would find t1 as the earliest future talk at 09:00, but
`handle_dns_query` calls `get_next_talks()` with no `now_str` argument, so
every `next.talks` query raises TypeError before any lookup. -/
theorem c3_next_query_crashes :
    get_next_talks scenarioStore "2025-09-13T09:00:00+05:30" =
        .ok [("Track 1", scenarioTalk)] ∧
    handle_dns_query 3333 scenarioStore (clientPacket "next.talks.example.") =
      .error (.typeError "get_next_talks() missing 1 required positional argument: now_str") := by
  constructor
  · decide
  · decide

/-- C8: the IPv4 self-traffic guard and the unknown-network-layer guard drop
silently (no outbound packet), for any packet and TXT payload; but an IPv6
packet — self-traffic or not — raises IndexError at the guard itself, because
the source reads `query_packet[IP].src` on a packet with no IPv4 layer
(line 179), so the IPv6 drop is a crash rather than the claimed silent drop. -/
theorem c8_self_traffic_guard :
    (∀ (port : Nat) (pkt : Packet) (txts : List String) (dst : String),
      pkt.net = .ip4 "127.0.0.1" dst → pkt.sport = port →
        create_dns_response port pkt txts = .ok none) ∧
    (∀ (port : Nat) (pkt : Packet) (txts : List String),
      pkt.net = .other → create_dns_response port pkt txts = .ok none) ∧
    (∀ (port : Nat) (pkt : Packet) (txts : List String) (src dst : String),
      pkt.net = .ip6 src dst → create_dns_response port pkt txts = .error .indexError) ∧
    create_dns_response 3333
        ⟨true, 1, "now.talks.example.", .ip6 "::1" "fe80::1", 3333, 53444⟩ ["x"] =
      .error .indexError := by
  refine ⟨?_, ?_, ?_, rfl⟩
  · intro port pkt txts dst hnet hsport
    unfold create_dns_response
    rw [hnet]
    dsimp only
    rw [if_pos ⟨rfl, hsport⟩]
  · intro port pkt txts hnet
    unfold create_dns_response
    rw [hnet]
  · intro port pkt txts src dst hnet
    unfold create_dns_response
    rw [hnet]

/-- Witness for C8: the guard conjuncts applied to concrete packets. -/
theorem c8_self_traffic_guard_witness :
    create_dns_response 3333
        ⟨true, 1, "now.talks.example.", .ip4 "127.0.0.1" "127.0.0.1", 3333, 53444⟩ ["x"] =
      .ok none ∧
    create_dns_response 3333
        ⟨true, 1, "now.talks.example.", .other, 3333, 53444⟩ ["x"] = .ok none ∧
    create_dns_response 3333
        ⟨true, 1, "now.talks.example.", .ip6 "::1" "fe80::1", 3333, 53444⟩ ["x"] =
      .error .indexError :=
  ⟨c8_self_traffic_guard.1 3333 _ ["x"] "127.0.0.1" rfl rfl,
   c8_self_traffic_guard.2.1 3333 _ ["x"] rfl,
   c8_self_traffic_guard.2.2.1 3333 _ ["x"] "::1" "fe80::1" rfl⟩

/-- A line of 300 two-byte characters: exactly 600 UTF-8 bytes. -/
def eLine : String := String.mk (List.replicate 300 'é')

/-- An ASCII line of exactly 600 UTF-8 bytes. -/
def aLine : String := String.mk (List.replicate 600 'a')

/-- A line of 128 two-byte characters: 256 UTF-8 bytes, so the 255-byte cut
falls in the middle of the last character. -/
def eLine256 : String := String.mk (List.replicate 128 'é')

/-- C4 counterexample: the empty line has a ≤255-byte encoding but chunks to
`[]`, not `[""]`; and a 600-byte line of two-byte characters chunks into
pieces of 254, 254 and 90 bytes — the first two are not exactly 255 bytes,
because the trailing split character of each piece is dropped. -/
theorem c4_counterexample :
    utf8Len "" ≤ 255 ∧ chunk "" ≠ [""] ∧
    utf8Len eLine = 600 ∧ (chunk eLine).map utf8Len = [254, 254, 90] := by
  decide

/-- C4 (amended): chunking of a nonempty line of at most 255 encoded bytes
returns exactly that line; the empty line returns no pieces; any line of
exactly 600 encoded bytes yields exactly 3 pieces; every piece of every line
re-encodes to at most 255 bytes; for the ASCII 600-byte line the pieces are
exactly 255, 255 and 90 bytes; and a piece boundary that splits a multi-byte
character drops that character rather than corrupting the output (the
256-byte two-byte-character line decodes to 127 whole characters and an
empty second piece). -/
theorem c4_chunk_amended :
    (∀ s : String, s.data ≠ [] → utf8Len s ≤ 255 → chunk s = [s]) ∧
    chunk "" = [] ∧
    (∀ s : String, utf8Len s = 600 → (chunk s).length = 3) ∧
    (∀ (s p : String), p ∈ chunk s → utf8Len p ≤ 255) ∧
    (chunk aLine).map utf8Len = [255, 255, 90] ∧
    (chunk eLine256).map (fun p => p.data) = [List.replicate 127 'é', []] := by
  refine ⟨fun s h1 h2 => chunk_single s h1 h2, by decide, ?_, fun s p hp => chunk_piece_le s p hp,
    by decide, by decide⟩
  intro s h
  rw [chunk_length]
  have hlen : (utf8EncodeList s.data).length = 600 := h
  rw [hlen]

/-- Witness for C4: the amended theorem applied to concrete lines. -/
theorem c4_chunk_amended_witness :
    chunk "hi" = ["hi"] ∧ (chunk aLine).length = 3 :=
  ⟨c4_chunk_amended.1 "hi" (by decide) (by decide),
   c4_chunk_amended.2.2.1 aLine (by decide)⟩

theorem stepCore_congr (data data' : Data) (tr : Nat × String × Nat)
    (h : fetchRaw data tr.1 tr.2.1 tr.2.2 = fetchRaw data' tr.1 tr.2.1 tr.2.2) :
    stepCore data tr = stepCore data' tr := by
  unfold stepCore
  rw [h]

theorem parseGo_congr (data data' : Data) :
    ∀ (l : List (Nat × String × Nat)) (st : Store),
      (∀ tr ∈ l, stepCore data tr = stepCore data' tr) →
      parseGo data l st = parseGo data' l st := by
  intro l
  induction l with
  | nil => intro st h; rfl
  | cons tr rest ih =>
      intro st h
      simp only [parseGo]
      rw [h tr (List.mem_cons_self _ _)]
      cases hx : stepCore data' tr with
      | error e => rfl
      | ok x => exact ih _ (fun u hu => h u (List.mem_cons_of_mem _ hu))

theorem parseGo_error (data : Data) :
    ∀ (l : List (Nat × String × Nat)) (st : Store) (tr : Nat × String × Nat),
      tr ∈ l → (∃ e, stepCore data tr = .error e) →
      ∃ e', parseGo data l st = .error e' := by
  intro l
  induction l with
  | nil => intro st tr h; exact absurd h (List.not_mem_nil _)
  | cons hd rest ih =>
      intro st tr hmem he
      simp only [parseGo]
      cases hx : stepCore data hd with
      | error e => exact ⟨e, rfl⟩
      | ok x =>
          rcases List.mem_cons.mp hmem with heq | hmem2
          · subst heq
            obtain ⟨e, he⟩ := he
            rw [he] at hx
            exact absurd hx (by simp)
          · exact ih _ tr hmem2 he

/-- Two datasets agree on everything the loader reads: the same raw talk at
every (day 1 or 2, named track, index 0..6) triple. -/
def ShapeAgree (data data' : Data) : Prop :=
  ∀ tr ∈ accessList, fetchRaw data tr.1 tr.2.1 tr.2.2 = fetchRaw data' tr.1 tr.2.1 tr.2.2

/-- A day with every room truncated to its first 7 talks. -/
def truncDay (day : Day) : Day := ⟨day.rooms.map (fun kv => (kv.1, kv.2.take 7))⟩

theorem assocLookup_truncDay (rooms : List (String × List RawTalk)) (t : String) :
    assocLookup (rooms.map (fun kv => (kv.1, kv.2.take 7))) t =
      (assocLookup rooms t).map (fun l => l.take 7) := by
  induction rooms with
  | nil => rfl
  | cons kv rest ih =>
      simp only [List.map_cons, assocLookup]
      split
      · rfl
      · exact ih

theorem take_get?_lt : ∀ (n : Nat) (l : List RawTalk) (i : Nat), i < n →
    (l.take n).get? i = l.get? i := by
  intro n
  induction n with
  | zero => intro l i hi; omega
  | succ m ih =>
      intro l i hi
      cases l with
      | nil => rfl
      | cons hd tl =>
          cases i with
          | zero => rfl
          | succ j =>
              simp only [List.take_succ_cons, List.get?_cons_succ]
              exact ih tl j (by omega)

theorem roomFetch_truncDay (day : Day) (t : String) (i : Nat) (hi : i < 7) :
    (orFail (assocLookup (truncDay day).rooms t) (PyErr.keyError t)).bind
        (fun room => orFail (room.get? i) PyErr.indexError) =
      (orFail (assocLookup day.rooms t) (PyErr.keyError t)).bind
        (fun room => orFail (room.get? i) PyErr.indexError) := by
  rw [show (truncDay day).rooms = day.rooms.map (fun kv => (kv.1, kv.2.take 7)) from rfl,
      assocLookup_truncDay]
  cases hroom : assocLookup day.rooms t with
  | none => rfl
  | some room =>
      show (orFail (some (room.take 7)) (PyErr.keyError t)).bind _ = _
      show orFail ((room.take 7).get? i) PyErr.indexError = orFail (room.get? i) PyErr.indexError
      rw [take_get?_lt 7 room i hi]

/-- C10: the loader reads only the days at indices 1 and 2, only the rooms
named Track 1..3, and only talk indices 0..6: its result depends on nothing
else (any two datasets agreeing there parse identically; the day at index 0
and any talks beyond index 6 are irrelevant), and it raises whenever one of
those accesses fails. -/
theorem c10_loader_shape :
    (∀ data data', ShapeAgree data data' → parse_talks data = parse_talks data') ∧
    (∀ (x y : Day) (ds : List Day),
      parse_talks ⟨⟨⟨x :: ds⟩⟩⟩ = parse_talks ⟨⟨⟨y :: ds⟩⟩⟩) ∧
    (∀ (d0 d1 d2 : Day) (rest rest' : List Day),
      parse_talks ⟨⟨⟨d0 :: d1 :: d2 :: rest⟩⟩⟩ = parse_talks ⟨⟨⟨d0 :: d1 :: d2 :: rest'⟩⟩⟩) ∧
    (∀ (d0 d1 d2 : Day) (rest : List Day),
      parse_talks ⟨⟨⟨d0 :: d1 :: d2 :: rest⟩⟩⟩ =
        parse_talks ⟨⟨⟨d0 :: truncDay d1 :: truncDay d2 :: rest⟩⟩⟩) ∧
    (∀ (data : Data) (tr : Nat × String × Nat),
      tr ∈ accessList → (∃ e, fetchRaw data tr.1 tr.2.1 tr.2.2 = .error e) →
      ∃ e', parse_talks data = .error e') := by
  have hday : ∀ tr ∈ accessList, tr.1 = 1 ∨ tr.1 = 2 := by
    decide
  have hidx : ∀ tr ∈ accessList, tr.2.2 < 7 := by
    decide
  refine ⟨?_, ?_, ?_, ?_, ?_⟩
  · intro data data' hsh
    exact parseGo_congr data data' accessList ⟨[], []⟩
      (fun tr htr => stepCore_congr _ _ _ (hsh tr htr))
  · intro x y ds
    apply parseGo_congr _ _ accessList ⟨[], []⟩
    intro tr htr
    apply stepCore_congr
    unfold fetchRaw
    rcases hday tr htr with h1 | h1 <;> rw [h1] <;> rfl
  · intro d0 d1 d2 rest rest'
    apply parseGo_congr _ _ accessList ⟨[], []⟩
    intro tr htr
    apply stepCore_congr
    unfold fetchRaw
    rcases hday tr htr with h1 | h1 <;> rw [h1] <;> rfl
  · intro d0 d1 d2 rest
    apply parseGo_congr _ _ accessList ⟨[], []⟩
    intro tr htr
    apply stepCore_congr
    have hi := hidx tr htr
    rcases hday tr htr with h1 | h1 <;> rw [h1]
    · exact (roomFetch_truncDay d1 tr.2.1 tr.2.2 hi).symm
    · exact (roomFetch_truncDay d2 tr.2.1 tr.2.2 hi).symm
  · intro data tr htr hfe
    obtain ⟨e, hfe⟩ := hfe
    apply parseGo_error data accessList ⟨[], []⟩ tr htr
    refine ⟨e, ?_⟩
    unfold stepCore
    rw [hfe]
    rfl

/-- A single decimal digit as a string (enough for the builders below). -/
def natDigit (n : Nat) : String := String.mk [digitChar (n % 10)]

def pad2s (n : Nat) : String := String.mk (pad2l n)

/-- An aware ISO timestamp on a September 2025 day at the IST offset. -/
def mkDate (dayS : String) (h mi : Nat) : String :=
  "2025-09-" ++ dayS ++ "T" ++ pad2s h ++ ":" ++ pad2s mi ++ ":00+05:30"

/-- A raw talk with all four keys present and no speakers. -/
def mkRaw (g date title : String) : RawTalk := ⟨some date, some title, some [], some g⟩

/-- A full room of 7 half-hourly talks starting 09:MM, MM staggered by track. -/
def stdRoom (dayS : String) (t : Nat) : List RawTalk :=
  (List.range 7).map fun i =>
    mkRaw ("g" ++ natDigit t ++ dayS ++ natDigit i)
      (mkDate dayS (9 + i) (10 * t)) ("T" ++ natDigit t ++ natDigit i)

def stdDay (dayS : String) : Day :=
  ⟨[("Track 1", stdRoom dayS 0), ("Track 2", stdRoom dayS 1), ("Track 3", stdRoom dayS 2)]⟩

/-- A well-formed 42-talk dataset (days at indices 1 and 2; index 0 unused). -/
def stdData : Data := ⟨⟨⟨[⟨[]⟩, stdDay "13", stdDay "14"]⟩⟩⟩

def c10DataB : Data := ⟨⟨⟨[stdDay "14", stdDay "13", stdDay "14", ⟨[]⟩]⟩⟩⟩

instance (data data' : Data) : Decidable (ShapeAgree data data') :=
  List.decidableBAll _ accessList

theorem c10_loader_shape_witness :
    parse_talks stdData = parse_talks c10DataB ∧
    (∃ e', parse_talks ⟨⟨⟨[]⟩⟩⟩ = .error e') :=
  ⟨c10_loader_shape.1 stdData c10DataB (by decide),
   c10_loader_shape.2.2.2.2 ⟨⟨⟨[]⟩⟩⟩ (1, "Track 1", 0) (by decide)
     ⟨PyErr.indexError, by decide⟩⟩

theorem get_time_parse_fail (s t : String) (h : fromisoformat s = none) :
    get_time s t = .error .valueError := by
  unfold get_time
  rw [h]
  rfl

theorem get_time_ok (s t : String) (dt : DT) (h1 : fromisoformat s = some dt)
    (h2 : (add30 dt).year ≤ 9999) :
    get_time s t = .ok (s, isoformat (add30 dt), t) := by
  unfold get_time
  rw [h1]
  show (if (add30 dt).year > 9999 then (Except.error PyErr.overflowError :
      Except PyErr (String × String × String))
    else .ok (s, isoformat (add30 dt), t)) = .ok (s, isoformat (add30 dt), t)
  rw [if_neg (by omega)]

theorem stepCore_missing_field (data : Data) (tr : Nat × String × Nat) (s : String)
    (ti : Option String) (pe : Option (List RawPerson)) (gu : Option String) (dt : DT)
    (hf : fetchRaw data tr.1 tr.2.1 tr.2.2 = .ok ⟨some s, ti, pe, gu⟩)
    (hparse : fromisoformat s = some dt) (hyear : (add30 dt).year ≤ 9999)
    (hmiss : gu = none ∨ ti = none ∨ pe = none) :
    ∃ e, stepCore data tr = .error e := by
  cases gu <;> cases ti <;> cases pe <;>
    first
      | (exact ⟨_, by
            unfold stepCore
            rw [hf]
            show Except.bind (get_time s tr.2.1) _ = _
            rw [get_time_ok s tr.2.1 dt hparse hyear]
            rfl⟩)
      | (rcases hmiss with h | h | h <;> cases h)

theorem dictInsert_keys [DecidableEq κ] (l : List (κ × ν)) (k : κ) (v : ν) :
    (dictInsert l k v).map Prod.fst =
      if k ∈ l.map Prod.fst then l.map Prod.fst else l.map Prod.fst ++ [k] := by
  induction l with
  | nil => rfl
  | cons kv rest ih =>
      obtain ⟨k0, v0⟩ := kv
      simp only [dictInsert, List.map_cons, List.mem_cons]
      by_cases hk : k0 = k
      · subst hk
        rw [if_pos rfl, if_pos (Or.inl rfl)]
        rfl
      · rw [if_neg hk, List.map_cons, ih]
        by_cases hmem : k ∈ rest.map Prod.fst
        · rw [if_pos hmem, if_pos (Or.inr hmem)]
        · rw [if_neg hmem, if_neg (by
            intro hor
            rcases hor with h1 | h1
            · exact hk h1.symm
            · exact hmem h1)]
          rfl

theorem dictInsert_keys_nodup [DecidableEq κ] (l : List (κ × ν)) (k : κ) (v : ν)
    (h : (l.map Prod.fst).Nodup) : ((dictInsert l k v).map Prod.fst).Nodup := by
  rw [dictInsert_keys]
  by_cases hmem : k ∈ l.map Prod.fst
  · rw [if_pos hmem]; exact h
  · rw [if_neg hmem]
    rw [List.nodup_append]
    exact ⟨h, List.nodup_singleton k, by
      intro a ha hb
      rw [List.mem_singleton] at hb
      subst hb
      exact hmem ha⟩

theorem parseGo_talks_nodup (data : Data) :
    ∀ (l : List (Nat × String × Nat)) (st : Store),
      (st.talks.map Prod.fst).Nodup →
      ∀ st', parseGo data l st = .ok st' → (st'.talks.map Prod.fst).Nodup := by
  intro l
  induction l with
  | nil =>
      intro st h st' heq
      cases heq
      exact h
  | cons tr rest ih =>
      intro st h st' heq
      simp only [parseGo] at heq
      cases hx : stepCore data tr with
      | error e => rw [hx] at heq; cases heq
      | ok x =>
          rw [hx] at heq
          exact ih (stepIns st x) (dictInsert_keys_nodup st.talks x.2.1 x.2.2 h) st' heq

def c9Room : List RawTalk :=
  mkRaw "gdup" (mkDate "13" 9 0) "TA" :: mkRaw "gdup" (mkDate "13" 10 0) "TB" ::
    (List.range 5).map (fun i => mkRaw ("gx" ++ natDigit i) (mkDate "13" (11 + i) 0)
      ("TX" ++ natDigit i))

def c9Day13 : Day :=
  ⟨[("Track 1", c9Room), ("Track 2", stdRoom "13" 1), ("Track 3", stdRoom "13" 2)]⟩

/-- A dataset whose Track 1 day-1 slots 0 and 1 share the talk id "gdup". -/
def c9DupData : Data := ⟨⟨⟨[⟨[]⟩, c9Day13, stdDay "14"]⟩⟩⟩

def c9DupStore : Store := (parse_talks c9DupData).toOption.getD ⟨[], []⟩

/-- C9 counterexample: a dataset with two talks sharing the id "gdup" loads
successfully (no error at all), producing a store whose talk dict holds only
the later of the two (41 entries for 42 time slots). -/
theorem c9_counterexample :
    parse_talks c9DupData = .ok c9DupStore ∧
    assocLookup c9DupStore.talks "gdup" =
      some ⟨mkDate "13" 10 0, "TB", [], "Track 1"⟩ ∧
    c9DupStore.talks.length = 41 ∧ c9DupStore.time_wise.length = 42 := by
  decide

def c9MissData : Data :=
  ⟨⟨⟨[⟨[]⟩, ⟨[("Track 1", [⟨none, some "TA", some [], some "gm"⟩])]⟩]⟩⟩⟩

/-- C9 (amended): loading fails when a talk read by the loader is missing a
required field (`date`, and — provided the timestamp is usable — `guid`,
`title` or `persons`) or has an unparseable timestamp; but duplicate talk ids
are NOT rejected: loading succeeds and the later talk silently overwrites the
earlier in the id dict, so every successfully loaded store has pairwise
distinct talk ids. -/
theorem c9_load_failure_amended :
    (∀ (data : Data) (tr : Nat × String × Nat) (raw : RawTalk),
      tr ∈ accessList → fetchRaw data tr.1 tr.2.1 tr.2.2 = .ok raw →
      raw.date = none → ∃ e, parse_talks data = .error e) ∧
    (∀ (data : Data) (tr : Nat × String × Nat) (raw : RawTalk) (s : String),
      tr ∈ accessList → fetchRaw data tr.1 tr.2.1 tr.2.2 = .ok raw →
      raw.date = some s → fromisoformat s = none → ∃ e, parse_talks data = .error e) ∧
    (∀ (data : Data) (tr : Nat × String × Nat) (raw : RawTalk) (s : String) (dt : DT),
      tr ∈ accessList → fetchRaw data tr.1 tr.2.1 tr.2.2 = .ok raw →
      raw.date = some s → fromisoformat s = some dt → (add30 dt).year ≤ 9999 →
      (raw.guid = none ∨ raw.title = none ∨ raw.persons = none) →
      ∃ e, parse_talks data = .error e) ∧
    (∀ (data : Data) (st : Store), parse_talks data = .ok st →
      (st.talks.map Prod.fst).Nodup) := by
  refine ⟨?_, ?_, ?_, ?_⟩
  · intro data tr raw htr hf hd
    apply parseGo_error data accessList ⟨[], []⟩ tr htr
    obtain ⟨d, ti, pe, gu⟩ := raw
    have hd' : d = none := hd
    subst hd'
    refine ⟨.keyError "date", ?_⟩
    unfold stepCore
    rw [hf]
    rfl
  · intro data tr raw s htr hf hd hparse
    apply parseGo_error data accessList ⟨[], []⟩ tr htr
    obtain ⟨d, ti, pe, gu⟩ := raw
    have hd' : d = some s := hd
    subst hd'
    refine ⟨.valueError, ?_⟩
    unfold stepCore
    rw [hf]
    show Except.bind (get_time s tr.2.1) _ = _
    rw [get_time_parse_fail s tr.2.1 hparse]
    rfl
  · intro data tr raw s dt htr hf hd hparse hyear hmiss
    apply parseGo_error data accessList ⟨[], []⟩ tr htr
    obtain ⟨d, ti, pe, gu⟩ := raw
    have hd' : d = some s := hd
    subst hd'
    exact stepCore_missing_field data tr s ti pe gu dt hf hparse hyear hmiss
  · intro data st heq
    exact parseGo_talks_nodup data accessList ⟨[], []⟩ (by decide) st heq

theorem c9_load_failure_amended_witness :
    (∃ e, parse_talks c9MissData = .error e) ∧
    (c9DupStore.talks.map Prod.fst).Nodup :=
  ⟨c9_load_failure_amended.1 c9MissData (1, "Track 1", 0)
      ⟨none, some "TA", some [], some "gm"⟩ (by decide) (by decide) rfl,
   c9_load_failure_amended.2.2.2 c9DupData c9DupStore (by decide)⟩

def c7Room : List RawTalk :=
  (List.range 7).map fun i =>
    mkRaw ("g7" ++ natDigit i)
      (mkDate "13" (List.getD [11, 10, 12, 13, 14, 15, 16] i 9) 0) ("TY" ++ natDigit i)

def c7Day13 : Day :=
  ⟨[("Track 1", c7Room), ("Track 2", stdRoom "13" 1), ("Track 3", stdRoom "13" 2)]⟩

/-- A dataset whose Track 1 day-1 room lists an 11:00 talk before a 10:00 one. -/
def c7Data : Data := ⟨⟨⟨[⟨[]⟩, c7Day13, stdDay "14"]⟩⟩⟩

def c7Store : Store := (parse_talks c7Data).toOption.getD ⟨[], []⟩

/-- Strict comparison of two ISO start strings by their instants. -/
def startLt (a b : String) : Bool :=
  match fromisoformat a, fromisoformat b with
  | some x, some y => decide (instantSec x < instantSec y)
  | _, _ => false

/-- C7 counterexample: a loaded store on which get_track_talks returns the
Track 1 talks in slot order, not start-ascending: the first returned talk
starts at 11:00, the second at 10:00. -/
theorem c7_counterexample :
    parse_talks c7Data = .ok c7Store ∧
    Except.map (fun l => (l.map Talk.date).take 2) (get_track_talks c7Store "Track 1") =
      .ok [mkDate "13" 11 0, mkDate "13" 10 0] ∧
    startLt (mkDate "13" 10 0) (mkDate "13" 11 0) = true := by
  decide

theorem trackGo_ok (talks : List (String × Talk)) (t : String) :
    ∀ l, (∀ e ∈ l, (assocLookup talks e.2).isSome = true) →
      trackGo talks t l = .ok ((l.filter (fun e => e.1.2.2 == t)).map
        (fun e => (assocLookup talks e.2).getD ⟨"", "", [], ""⟩)) := by
  intro l
  induction l with
  | nil => intro h; rfl
  | cons e rest ih =>
      intro h
      obtain ⟨k, tid⟩ := e
      have h' : ∀ e ∈ rest, (assocLookup talks e.2).isSome = true :=
        fun u hu => h u (List.mem_cons_of_mem _ hu)
      simp only [trackGo, List.filter_cons]
      by_cases hk : k.2.2 = t
      · rw [if_pos hk]
        obtain ⟨talk, htalk⟩ := Option.isSome_iff_exists.mp
          (h (k, tid) (List.mem_cons_self _ _))
        rw [htalk, if_pos (by simpa using hk), List.map_cons]
        show Except.bind (trackGo talks t rest) _ = _
        rw [ih h']
        rw [htalk]
        rfl
      · rw [if_neg hk, if_neg (by simpa using hk)]
        exact ih h'

/-- C7 (amended): for every store whose time index only references present
talk ids, get_track_talks t succeeds and returns exactly the talks looked up
from the time-index entries whose track component equals t, in time-index
insertion order — the source performs no sorting, so the order is the
loader's slot order, not start-ascending. -/
theorem c7_track_filter_amended :
    ∀ (store : Store) (t : String),
      (∀ e ∈ store.time_wise, (assocLookup store.talks e.2).isSome = true) →
      ∃ l, get_track_talks store t = .ok l ∧
        l = (store.time_wise.filter (fun e => e.1.2.2 == t)).map
              (fun e => (assocLookup store.talks e.2).getD ⟨"", "", [], ""⟩) ∧
        ∀ talk, talk ∈ l ↔ ∃ e ∈ store.time_wise, e.1.2.2 = t ∧
          assocLookup store.talks e.2 = some talk := by
  intro store t hids
  refine ⟨_, trackGo_ok store.talks t store.time_wise hids, rfl, ?_⟩
  intro talk
  simp only [List.mem_map, List.mem_filter, beq_iff_eq]
  constructor
  · rintro ⟨e, ⟨hmem, htrack⟩, hfe⟩
    obtain ⟨v, hv⟩ := Option.isSome_iff_exists.mp (hids e hmem)
    rw [hv] at hfe
    refine ⟨e, hmem, htrack, ?_⟩
    rw [hv, ← hfe]
    rfl
  · rintro ⟨e, hmem, htrack, hlook⟩
    refine ⟨e, ⟨hmem, htrack⟩, ?_⟩
    rw [hlook]
    rfl

theorem c7_track_filter_amended_witness :
    ∃ l, get_track_talks c7Store "Track 1" = .ok l ∧
      l = (c7Store.time_wise.filter (fun e => e.1.2.2 == "Track 1")).map
            (fun e => (assocLookup c7Store.talks e.2).getD ⟨"", "", [], ""⟩) ∧
      ∀ talk, talk ∈ l ↔ ∃ e ∈ c7Store.time_wise, e.1.2.2 = "Track 1" ∧
        assocLookup c7Store.talks e.2 = some talk :=
  c7_track_filter_amended c7Store "Track 1" (by decide)

/-- Coherence of one time-index entry with the talk dict, as the loader
establishes it: the start string parses, the 30-minute end fits the calendar,
the end string is exactly the formatted end, and the referenced talk exists
and carries the entry's start string and track. -/
def wfEntryB (talks : List (String × Talk)) (e : (String × String × String) × String) : Bool :=
  match fromisoformat e.1.1 with
  | none => false
  | some dt =>
      decide ((add30 dt).year ≤ 9999) && (e.1.2.1 == isoformat (add30 dt)) &&
      (match assocLookup talks e.2 with
       | none => false
       | some talk => talk.date == e.1.1 && talk.track == e.1.2.2)

/-- A store every entry of which is coherent (true of every loaded store). -/
def WFStore (store : Store) : Prop :=
  ∀ e ∈ store.time_wise, wfEntryB store.talks e = true

instance (store : Store) : Decidable (WFStore store) :=
  List.decidableBAll _ store.time_wise

theorem wfEntry_spec (talks : List (String × Talk)) (e : (String × String × String) × String)
    (h : wfEntryB talks e = true) :
    ∃ dt talk, fromisoformat e.1.1 = some dt ∧ ValidDT dt ∧ (add30 dt).year ≤ 9999 ∧
      e.1.2.1 = isoformat (add30 dt) ∧ assocLookup talks e.2 = some talk ∧
      talk.date = e.1.1 ∧ talk.track = e.1.2.2 := by
  unfold wfEntryB at h
  cases hs : fromisoformat e.1.1 with
  | none => rw [hs] at h; cases h
  | some dt =>
      rw [hs] at h
      cases hl : assocLookup talks e.2 with
      | none => rw [hl] at h; simp at h
      | some talk =>
          rw [hl] at h
          simp only [Bool.and_eq_true, beq_iff_eq, decide_eq_true_eq] at h
          exact ⟨dt, talk, rfl, fromisoformat_valid hs, h.1.1, h.1.2, rfl, h.2.1, h.2.2⟩

/-- The contribution of one time-index entry to the `upcoming` list of
`get_next_talks`. -/
def upEntry (now : DT) (e : (String × String × String) × String) :
    Option (Int × String × String) :=
  match fromisoformat e.1.1 with
  | some s => if instantSec now < instantSec s then some (instantSec s, e.1.2.2, e.2) else none
  | none => none

theorem upEntry_eq (now : DT) (e : (String × String × String) × String) (s : DT)
    (hs : fromisoformat e.1.1 = some s) :
    upEntry now e =
      if instantSec now < instantSec s then some (instantSec s, e.1.2.2, e.2) else none := by
  unfold upEntry
  rw [hs]

theorem upEntry_none (now : DT) (e : (String × String × String) × String)
    (hs : fromisoformat e.1.1 = none) : upEntry now e = none := by
  unfold upEntry
  rw [hs]

theorem upEntry_some_iff (now : DT) (e : (String × String × String) × String)
    (x : Int × String × String) :
    upEntry now e = some x ↔ ∃ s, fromisoformat e.1.1 = some s ∧
      instantSec now < instantSec s ∧ x = (instantSec s, e.1.2.2, e.2) := by
  cases hs : fromisoformat e.1.1 with
  | none =>
      rw [upEntry_none now e hs]
      constructor
      · intro h; cases h
      · rintro ⟨s', hs', hlt', hx⟩
        cases hs'
  | some s =>
      rw [upEntry_eq now e s hs]
      by_cases hlt : instantSec now < instantSec s
      · rw [if_pos hlt]
        constructor
        · intro h
          exact ⟨s, rfl, hlt, (Option.some_inj.mp h).symm⟩
        · rintro ⟨s', hs', hlt', hx⟩
          obtain rfl : s = s' := Option.some_inj.mp hs'
          rw [hx]
      · rw [if_neg hlt]
        constructor
        · intro h; cases h
        · rintro ⟨s', hs', hlt', hx⟩
          obtain rfl : s = s' := Option.some_inj.mp hs'
          exact absurd hlt' hlt

theorem upcomingGo_ok (now : DT) (l : List ((String × String × String) × String))
    (h : ∀ e ∈ l, (fromisoformat e.1.1).isSome = true) :
    upcomingGo now l = .ok (l.filterMap (upEntry now)) := by
  induction l with
  | nil => rfl
  | cons e rest ih =>
      obtain ⟨k, tid⟩ := e
      obtain ⟨s, hs⟩ := Option.isSome_iff_exists.mp (h (k, tid) (List.mem_cons_self _ _))
      have hs' : fromisoformat k.1 = some s := hs
      have h' : ∀ u ∈ rest, (fromisoformat u.1.1).isSome = true :=
        fun u hu => h u (List.mem_cons_of_mem _ hu)
      simp only [upcomingGo, List.filterMap_cons]
      rw [hs', upEntry_eq now (k, tid) s hs]
      show Except.bind (upcomingGo now rest) _ = _
      rw [ih h']
      show (if instantSec now < instantSec s then
          Except.ok ((instantSec s, k.2.2, tid) :: List.filterMap (upEntry now) rest)
        else Except.ok (List.filterMap (upEntry now) rest)) = _
      by_cases hlt : instantSec now < instantSec s
      · rw [if_pos hlt, if_pos hlt]
      · rw [if_neg hlt, if_neg hlt]

theorem minStart_le : ∀ (l : List (Int × String × String)) (acc : Int),
    minStart acc l ≤ acc ∧ ∀ x ∈ l, minStart acc l ≤ x.1 := by
  intro l
  induction l with
  | nil => intro acc; exact ⟨le_refl acc, fun x hx => absurd hx (List.not_mem_nil x)⟩
  | cons y rest ih =>
      intro acc
      simp only [minStart]
      obtain ⟨h1, h2⟩ := ih (min acc y.1)
      refine ⟨le_trans h1 (min_le_left _ _), ?_⟩
      intro x hx
      rcases List.mem_cons.mp hx with rfl | hx2
      · exact le_trans h1 (min_le_right _ _)
      · exact h2 x hx2

theorem minStart_mem : ∀ (l : List (Int × String × String)) (acc : Int),
    minStart acc l = acc ∨ ∃ x ∈ l, minStart acc l = x.1 := by
  intro l
  induction l with
  | nil => intro acc; exact Or.inl rfl
  | cons y rest ih =>
      intro acc
      simp only [minStart]
      rcases ih (min acc y.1) with h | ⟨x, hx, he⟩
      · rcases le_total acc y.1 with hle | hle
        · left; rw [h]; exact min_eq_left hle
        · right
          exact ⟨y, List.mem_cons_self _ _, by rw [h]; exact min_eq_right hle⟩
      · right
        exact ⟨x, List.mem_cons_of_mem _ hx, he⟩

theorem filterMap_congr_mem {α β : Type} {f g : α → Option β} :
    ∀ l : List α, (∀ a ∈ l, f a = g a) → l.filterMap f = l.filterMap g := by
  intro l
  induction l with
  | nil => intro h; rfl
  | cons a rest ih =>
      intro h
      simp only [List.filterMap_cons]
      rw [h a (List.mem_cons_self _ _), ih (fun u hu => h u (List.mem_cons_of_mem _ hu))]

theorem dictInsert_mem [DecidableEq κ] (l : List (κ × ν)) (k : κ) (v : ν) :
    ∀ p ∈ dictInsert l k v, p ∈ l ∨ p = (k, v) := by
  induction l with
  | nil =>
      intro p hp
      simp only [dictInsert] at hp
      rcases List.mem_singleton.mp hp with rfl
      exact Or.inr rfl
  | cons kv rest ih =>
      intro p hp
      obtain ⟨k0, v0⟩ := kv
      simp only [dictInsert] at hp
      by_cases hk : k0 = k
      · rw [if_pos hk] at hp
        rcases List.mem_cons.mp hp with rfl | hp2
        · subst hk; exact Or.inr rfl
        · exact Or.inl (List.mem_cons_of_mem _ hp2)
      · rw [if_neg hk] at hp
        rcases List.mem_cons.mp hp with rfl | hp2
        · exact Or.inl (List.mem_cons_self _ _)
        · rcases ih p hp2 with h | h
          · exact Or.inl (List.mem_cons_of_mem _ h)
          · exact Or.inr h

theorem dictInsert_key_mem [DecidableEq κ] (l : List (κ × ν)) (k : κ) (v : ν) :
    k ∈ (dictInsert l k v).map Prod.fst := by
  rw [dictInsert_keys]
  by_cases hmem : k ∈ l.map Prod.fst
  · rw [if_pos hmem]; exact hmem
  · rw [if_neg hmem]; exact List.mem_append_right _ (List.mem_singleton_self k)

theorem dictInsert_key_mono [DecidableEq κ] (l : List (κ × ν)) (k : κ) (v : ν)
    (a : κ) (ha : a ∈ l.map Prod.fst) : a ∈ (dictInsert l k v).map Prod.fst := by
  rw [dictInsert_keys]
  by_cases hmem : k ∈ l.map Prod.fst
  · rw [if_pos hmem]; exact ha
  · rw [if_neg hmem]; exact List.mem_append_left _ ha

theorem dictInsert_ne_nil [DecidableEq κ] (l : List (κ × ν)) (k : κ) (v : ν) :
    dictInsert l k v ≠ [] := by
  cases l with
  | nil => simp [dictInsert]
  | cons kv rest =>
      obtain ⟨k0, v0⟩ := kv
      simp only [dictInsert]
      by_cases hk : k0 = k
      · rw [if_pos hk]; simp
      · rw [if_neg hk]; simp

theorem resultGo_spec (talks : List (String × Talk)) (m : Int) :
    ∀ (l : List (Int × String × String)) (acc : List (String × Talk)),
      (∀ x ∈ l, x.1 = m → (assocLookup talks x.2.2).isSome = true) →
      ∃ res, resultGo talks m l acc = .ok res ∧
        (∀ p ∈ res, p ∈ acc ∨ ∃ x, x ∈ l ∧ x.1 = m ∧ x.2.1 = p.1 ∧
          assocLookup talks x.2.2 = some p.2) ∧
        (∀ a ∈ acc.map Prod.fst, a ∈ res.map Prod.fst) ∧
        (∀ x ∈ l, x.1 = m → x.2.1 ∈ res.map Prod.fst) ∧
        ((acc.map Prod.fst).Nodup → (res.map Prod.fst).Nodup) ∧
        (res = [] ↔ (acc = [] ∧ ∀ x ∈ l, x.1 ≠ m)) := by
  intro l
  induction l with
  | nil =>
      intro acc h
      refine ⟨acc, rfl, ?_, ?_, ?_, ?_, ?_⟩
      · intro p hp; exact Or.inl hp
      · intro a ha; exact ha
      · intro x hx; exact absurd hx (List.not_mem_nil x)
      · intro h2; exact h2
      · constructor
        · intro h2; exact ⟨h2, fun x hx => absurd hx (List.not_mem_nil x)⟩
        · intro h2; exact h2.1
  | cons y rest ih =>
      intro acc h
      obtain ⟨i, tr, tid⟩ := y
      have hrest : ∀ x ∈ rest, x.1 = m → (assocLookup talks x.2.2).isSome = true :=
        fun x hx => h x (List.mem_cons_of_mem _ hx)
      by_cases hi : i = m
      · obtain ⟨talk, htalk⟩ := Option.isSome_iff_exists.mp
          (h (i, tr, tid) (List.mem_cons_self _ _) hi)
        obtain ⟨res, hres, hP1, hP2, hP3, hP4, hP5⟩ := ih (dictInsert acc tr talk) hrest
        refine ⟨res, ?_, ?_, ?_, ?_, ?_, ?_⟩
        · simp only [resultGo]
          rw [if_pos hi, htalk]
          exact hres
        · intro p hp
          rcases hP1 p hp with hpacc | ⟨x, hx, hxm, hxtr, hxlook⟩
          · rcases dictInsert_mem acc tr talk p hpacc with h2 | h2
            · exact Or.inl h2
            · right
              refine ⟨(i, tr, tid), List.mem_cons_self _ _, hi, ?_, ?_⟩
              · rw [h2]
              · rw [h2]; exact htalk
          · exact Or.inr ⟨x, List.mem_cons_of_mem _ hx, hxm, hxtr, hxlook⟩
        · intro a ha
          exact hP2 a (dictInsert_key_mono acc tr talk a ha)
        · intro x hx hxm
          rcases List.mem_cons.mp hx with rfl | hx2
          · exact hP2 _ (dictInsert_key_mem acc tr talk)
          · exact hP3 x hx2 hxm
        · intro hnd
          exact hP4 (dictInsert_keys_nodup acc tr talk hnd)
        · constructor
          · intro hre
            exact absurd (hP5.mp hre).1 (dictInsert_ne_nil acc tr talk)
          · rintro ⟨hacc, hall⟩
            exact absurd hi (hall (i, tr, tid) (List.mem_cons_self _ _))
      · obtain ⟨res, hres, hP1, hP2, hP3, hP4, hP5⟩ := ih acc hrest
        refine ⟨res, ?_, ?_, hP2, ?_, hP4, ?_⟩
        · simp only [resultGo]
          rw [if_neg hi]
          exact hres
        · intro p hp
          rcases hP1 p hp with h2 | ⟨x, hx, hxm, hxtr, hxlook⟩
          · exact Or.inl h2
          · exact Or.inr ⟨x, List.mem_cons_of_mem _ hx, hxm, hxtr, hxlook⟩
        · intro x hx hxm
          rcases List.mem_cons.mp hx with rfl | hx2
          · exact absurd hxm hi
          · exact hP3 x hx2 hxm
        · constructor
          · intro hre
            obtain ⟨hacc, hall⟩ := hP5.mp hre
            refine ⟨hacc, ?_⟩
            intro x hx
            rcases List.mem_cons.mp hx with rfl | hx2
            · exact hi
            · exact hall x hx2
          · rintro ⟨hacc, hall⟩
            exact hP5.mpr ⟨hacc, fun x hx => hall x (List.mem_cons_of_mem _ hx)⟩

/-- C5: on every coherent store (as the loader produces), `get_next_talks`
succeeds and: it returns the empty dict exactly when no indexed start is
strictly after the reference time; every returned pair maps a track to a talk
of that track whose start is strictly future and minimal among all strictly
future starts; every track owning a talk at the earliest strictly-future
start is a key of the result; keys are unique (exactly one talk per track);
and two reference times with no indexed start in the half-open gap between
them yield identical results. -/
theorem c5_next_talks :
    (∀ (store : Store) (now_str : String) (now : DT),
      WFStore store → fromisoformat now_str = some now →
      ∃ res, get_next_talks store now_str = .ok res ∧
        (res = [] ↔ ∀ e ∈ store.time_wise, ∀ s, fromisoformat e.1.1 = some s →
          instantSec s ≤ instantSec now) ∧
        (∀ p ∈ res, p.2.track = p.1 ∧ ∃ dt, fromisoformat p.2.date = some dt ∧
          instantSec now < instantSec dt ∧
          ∀ e2 ∈ store.time_wise, ∀ s2, fromisoformat e2.1.1 = some s2 →
            instantSec now < instantSec s2 → instantSec dt ≤ instantSec s2) ∧
        (∀ e ∈ store.time_wise, ∀ s, fromisoformat e.1.1 = some s →
          instantSec now < instantSec s →
          (∀ e2 ∈ store.time_wise, ∀ s2, fromisoformat e2.1.1 = some s2 →
            instantSec now < instantSec s2 → instantSec s ≤ instantSec s2) →
          e.1.2.2 ∈ res.map Prod.fst) ∧
        (res.map Prod.fst).Nodup) ∧
    (∀ (store : Store) (ns1 : String) (n1 : DT) (ns2 : String) (n2 : DT),
      WFStore store → fromisoformat ns1 = some n1 → fromisoformat ns2 = some n2 →
      instantSec n1 ≤ instantSec n2 →
      (∀ e ∈ store.time_wise, ∀ s, fromisoformat e.1.1 = some s →
        ¬(instantSec n1 < instantSec s ∧ instantSec s ≤ instantSec n2)) →
      get_next_talks store ns1 = get_next_talks store ns2) := by
  constructor
  · intro store now_str now hWF hnow
    have hparse : ∀ e ∈ store.time_wise, (fromisoformat e.1.1).isSome = true := by
      intro e he
      obtain ⟨dt, talk, h1, _⟩ := wfEntry_spec store.talks e (hWF e he)
      rw [h1]
      rfl
    cases hU : store.time_wise.filterMap (upEntry now) with
    | nil =>
        have hnofut : ∀ e ∈ store.time_wise, ∀ s, fromisoformat e.1.1 = some s →
            instantSec s ≤ instantSec now := by
          intro e he s hs
          by_contra hlt
          push_neg at hlt
          have hin : (instantSec s, e.1.2.2, e.2) ∈
              store.time_wise.filterMap (upEntry now) :=
            List.mem_filterMap.mpr ⟨e, he,
              (upEntry_some_iff now e _).mpr ⟨s, hs, hlt, rfl⟩⟩
          rw [hU] at hin
          exact absurd hin (List.not_mem_nil _)
        refine ⟨[], ?_, ?_, ?_, ?_, ?_⟩
        · unfold get_next_talks
          rw [hnow]
          show Except.bind (upcomingGo now store.time_wise) _ = _
          rw [upcomingGo_ok now store.time_wise hparse, hU]
          rfl
        · exact ⟨fun _ => hnofut, fun _ => rfl⟩
        · intro p hp
          exact absurd hp (List.not_mem_nil p)
        · intro e he s hs hlt _
          exact absurd (hnofut e he s hs) (not_le.mpr hlt)
        · simp
    | cons u us =>
        have hUmem : ∀ x, x ∈ u :: us ↔
            ∃ e ∈ store.time_wise, upEntry now e = some x := by
          intro x
          rw [← hU]
          exact List.mem_filterMap
        have hlook : ∀ x ∈ u :: us, (assocLookup store.talks x.2.2).isSome = true := by
          intro x hx
          obtain ⟨e, he, hupe⟩ := (hUmem x).mp hx
          obtain ⟨s, hs, hlt, hxeq⟩ := (upEntry_some_iff now e x).mp hupe
          obtain ⟨dt, talk, h1, h2, h3, h4, h5, h6, h7⟩ :=
            wfEntry_spec store.talks e (hWF e he)
          rw [hxeq]
          show (assocLookup store.talks e.2).isSome = true
          rw [h5]
          rfl
        obtain ⟨res, hres, hP1, hP2, hP3, hP4, hP5⟩ :=
          resultGo_spec store.talks (minStart u.1 us) (u :: us) []
            (fun x hx _ => hlook x hx)
        have hm_le : ∀ x ∈ u :: us, minStart u.1 us ≤ x.1 := by
          intro x hx
          rcases List.mem_cons.mp hx with rfl | hx2
          · exact (minStart_le us x.1).1
          · exact (minStart_le us u.1).2 x hx2
        have hm_att : ∃ x ∈ u :: us, minStart u.1 us = x.1 := by
          rcases minStart_mem us u.1 with h | ⟨x, hx, he⟩
          · exact ⟨u, List.mem_cons_self _ _, h⟩
          · exact ⟨x, List.mem_cons_of_mem _ hx, he⟩
        refine ⟨res, ?_, ?_, ?_, ?_, hP4 (by simp)⟩
        · unfold get_next_talks
          rw [hnow]
          show Except.bind (upcomingGo now store.time_wise) _ = _
          rw [upcomingGo_ok now store.time_wise hparse, hU]
          exact hres
        · constructor
          · intro hre
            obtain ⟨x0, hx0, hm0⟩ := hm_att
            exact absurd hm0.symm ((hP5.mp hre).2 x0 hx0)
          · intro hall
            exfalso
            obtain ⟨e, he, hupe⟩ := (hUmem u).mp (List.mem_cons_self _ _)
            obtain ⟨s, hs, hlt, _⟩ := (upEntry_some_iff now e u).mp hupe
            exact absurd (hall e he s hs) (not_le.mpr hlt)
        · intro p hp
          rcases hP1 p hp with hpacc | ⟨x, hxU, hxm, hxtr, hxlook⟩
          · exact absurd hpacc (List.not_mem_nil p)
          obtain ⟨e, he, hupe⟩ := (hUmem x).mp hxU
          obtain ⟨s, hs, hlt, hxeq⟩ := (upEntry_some_iff now e x).mp hupe
          obtain ⟨dt, talk, h1, h2, h3, h4, h5, h6, h7⟩ :=
            wfEntry_spec store.talks e (hWF e he)
          obtain rfl : s = dt := Option.some_inj.mp (hs.symm.trans h1)
          have hx22 : x.2.2 = e.2 := by rw [hxeq]
          have hx21 : x.2.1 = e.1.2.2 := by rw [hxeq]
          have hx1 : x.1 = instantSec s := by rw [hxeq]
          rw [hx22, h5] at hxlook
          obtain rfl : talk = p.2 := Option.some_inj.mp hxlook
          refine ⟨by rw [h7, ← hx21, hxtr], s, by rw [h6]; exact hs, hlt, ?_⟩
          intro e2 he2 s2 hs2 hlt2
          have hin2 : (instantSec s2, e2.1.2.2, e2.2) ∈ u :: us :=
            (hUmem _).mpr ⟨e2, he2, (upEntry_some_iff now e2 _).mpr ⟨s2, hs2, hlt2, rfl⟩⟩
          have := hm_le _ hin2
          rw [hxm] at hx1
          rw [← hx1]
          exact this
        · intro e he s hs hlt hminimal
          have hin : (instantSec s, e.1.2.2, e.2) ∈ u :: us :=
            (hUmem _).mpr ⟨e, he, (upEntry_some_iff now e _).mpr ⟨s, hs, hlt, rfl⟩⟩
          have hge : minStart u.1 us ≤ instantSec s := hm_le _ hin
          have hle2 : instantSec s ≤ minStart u.1 us := by
            obtain ⟨x0, hx0, hm0⟩ := hm_att
            obtain ⟨e0, he0, hupe0⟩ := (hUmem x0).mp hx0
            obtain ⟨s0, hs0, hlt0, hx0eq⟩ := (upEntry_some_iff now e0 x0).mp hupe0
            have : instantSec s ≤ instantSec s0 := hminimal e0 he0 s0 hs0 hlt0
            rw [hm0, hx0eq]
            exact this
          exact hP3 (instantSec s, e.1.2.2, e.2) hin (le_antisymm hge hle2).symm
  · intro store ns1 n1 ns2 n2 hWF h1 h2 hle hgap
    have hparse : ∀ e ∈ store.time_wise, (fromisoformat e.1.1).isSome = true := by
      intro e he
      obtain ⟨dt, talk, hp1, _⟩ := wfEntry_spec store.talks e (hWF e he)
      rw [hp1]
      rfl
    have hcong : ∀ e ∈ store.time_wise, upEntry n1 e = upEntry n2 e := by
      intro e he
      cases hs : fromisoformat e.1.1 with
      | none => rw [upEntry_none n1 e hs, upEntry_none n2 e hs]
      | some s =>
          rw [upEntry_eq n1 e s hs, upEntry_eq n2 e s hs]
          by_cases hlt : instantSec n1 < instantSec s
          · have hlt2 : instantSec n2 < instantSec s := by
              rcases lt_or_le (instantSec n2) (instantSec s) with h | h
              · exact h
              · exact absurd ⟨hlt, h⟩ (hgap e he s hs)
            rw [if_pos hlt, if_pos hlt2]
          · have hlt2 : ¬instantSec n2 < instantSec s :=
              fun h => hlt (lt_of_le_of_lt hle h)
            rw [if_neg hlt, if_neg hlt2]
    unfold get_next_talks
    rw [h1, h2]
    show Except.bind (upcomingGo n1 store.time_wise) _ =
      Except.bind (upcomingGo n2 store.time_wise) _
    rw [upcomingGo_ok n1 store.time_wise hparse, upcomingGo_ok n2 store.time_wise hparse,
        filterMap_congr_mem store.time_wise hcong]

def stdStore : Store := (parse_talks stdData).toOption.getD ⟨[], []⟩

theorem c5_next_talks_witness :
    (∃ res, get_next_talks stdStore (mkDate "13" 9 5) = .ok res ∧
      (res = [] ↔ ∀ e ∈ stdStore.time_wise, ∀ s, fromisoformat e.1.1 = some s →
        instantSec s ≤ instantSec ⟨2025, 9, 13, 9, 5, 0, 330⟩) ∧
      (∀ p ∈ res, p.2.track = p.1 ∧ ∃ dt, fromisoformat p.2.date = some dt ∧
        instantSec ⟨2025, 9, 13, 9, 5, 0, 330⟩ < instantSec dt ∧
        ∀ e2 ∈ stdStore.time_wise, ∀ s2, fromisoformat e2.1.1 = some s2 →
          instantSec ⟨2025, 9, 13, 9, 5, 0, 330⟩ < instantSec s2 →
            instantSec dt ≤ instantSec s2) ∧
      (∀ e ∈ stdStore.time_wise, ∀ s, fromisoformat e.1.1 = some s →
        instantSec ⟨2025, 9, 13, 9, 5, 0, 330⟩ < instantSec s →
        (∀ e2 ∈ stdStore.time_wise, ∀ s2, fromisoformat e2.1.1 = some s2 →
          instantSec ⟨2025, 9, 13, 9, 5, 0, 330⟩ < instantSec s2 →
            instantSec s ≤ instantSec s2) →
        e.1.2.2 ∈ res.map Prod.fst) ∧
      (res.map Prod.fst).Nodup) ∧
    get_next_talks stdStore (mkDate "13" 9 5) = get_next_talks stdStore (mkDate "13" 9 6) :=
  ⟨c5_next_talks.1 stdStore (mkDate "13" 9 5) ⟨2025, 9, 13, 9, 5, 0, 330⟩
      (by decide) (by decide),
   c5_next_talks.2 stdStore (mkDate "13" 9 5) ⟨2025, 9, 13, 9, 5, 0, 330⟩
      (mkDate "13" 9 6) ⟨2025, 9, 13, 9, 6, 0, 330⟩ (by decide) (by decide) (by decide)
      (by decide)
      (by
        have hall : ∀ e ∈ stdStore.time_wise,
            ((fromisoformat e.1.1).all fun s =>
              !(decide (instantSec ⟨2025, 9, 13, 9, 5, 0, 330⟩ < instantSec s) &&
                decide (instantSec s ≤ instantSec ⟨2025, 9, 13, 9, 6, 0, 330⟩))) = true := by
          decide
        intro e he s hs
        have h2 := hall e he
        rw [hs] at h2
        have h3 : (!(decide (instantSec ⟨2025, 9, 13, 9, 5, 0, 330⟩ < instantSec s) &&
            decide (instantSec s ≤ instantSec ⟨2025, 9, 13, 9, 6, 0, 330⟩))) = true := h2
        rintro ⟨ha, hb⟩
        rw [decide_eq_true ha, decide_eq_true hb] at h3
        cases h3)⟩

/-- The contribution of one time-index entry to `get_current_talks`. -/
def activeEntry (talks : List (String × Talk)) (now : DT)
    (e : (String × String × String) × String) : Option Talk :=
  match fromisoformat e.1.1, fromisoformat e.1.2.1, assocLookup talks e.2 with
  | some s, some en, some talk =>
      if instantSec s ≤ instantSec now ∧ instantSec now < instantSec en then some talk
      else none
  | _, _, _ => none

theorem activeEntry_eq (talks : List (String × Talk)) (now : DT)
    (e : (String × String × String) × String) (s en : DT) (talk : Talk)
    (hs : fromisoformat e.1.1 = some s) (hen : fromisoformat e.1.2.1 = some en)
    (hl : assocLookup talks e.2 = some talk) :
    activeEntry talks now e =
      if instantSec s ≤ instantSec now ∧ instantSec now < instantSec en then some talk
      else none := by
  unfold activeEntry
  rw [hs, hen, hl]

theorem currentGo_ok (talks : List (String × Talk)) (now : DT) :
    ∀ l, (∀ e ∈ l, wfEntryB talks e = true) →
      currentGo talks now l = .ok (l.filterMap (activeEntry talks now)) := by
  intro l
  induction l with
  | nil => intro h; rfl
  | cons e rest ih =>
      intro h
      obtain ⟨k, tid⟩ := e
      obtain ⟨dt, talk, h1, h2, h3, h4, h5, h6, h7⟩ :=
        wfEntry_spec talks (k, tid) (h _ (List.mem_cons_self _ _))
      have hs : fromisoformat k.1 = some dt := h1
      have hen : fromisoformat k.2.1 = some (add30 dt) := by
        have h4' : k.2.1 = isoformat (add30 dt) := h4
        rw [h4']
        exact fromisoformat_isoformat (add30 dt) (add30_valid dt h2 h3)
      have hl : assocLookup talks tid = some talk := h5
      have h' : ∀ u ∈ rest, wfEntryB talks u = true :=
        fun u hu => h u (List.mem_cons_of_mem _ hu)
      simp only [currentGo, List.filterMap_cons]
      rw [hs, hen, activeEntry_eq talks now (k, tid) dt (add30 dt) talk h1 hen hl]
      show (if instantSec dt ≤ instantSec now ∧ instantSec now < instantSec (add30 dt) then
          Except.bind (orFail (assocLookup talks tid) (PyErr.keyError tid)) (fun talk =>
            Except.bind (currentGo talks now rest) (fun tail => Except.ok (talk :: tail)))
        else currentGo talks now rest) = _
      by_cases hcond : instantSec dt ≤ instantSec now ∧ instantSec now < instantSec (add30 dt)
      · rw [if_pos hcond, if_pos hcond, hl]
        show Except.bind (currentGo talks now rest) _ = _
        rw [ih h']
        rfl
      · rw [if_neg hcond, if_neg hcond]
        exact ih h'

def c6Room : List RawTalk :=
  mkRaw "gA" (mkDate "13" 9 0) "TA" :: mkRaw "gB" (mkDate "13" 9 0) "TB" ::
    (List.range 5).map (fun i => mkRaw ("gy" ++ natDigit i) (mkDate "13" (11 + i) 0)
      ("TZ" ++ natDigit i))

def c6Day13 : Day :=
  ⟨[("Track 1", c6Room), ("Track 2", stdRoom "13" 1), ("Track 3", stdRoom "13" 2)]⟩

/-- A dataset whose Track 1 day-1 slots 0 and 1 share the same start time
(and hence the same time-index key) with different ids. -/
def c6Data : Data := ⟨⟨⟨[⟨[]⟩, c6Day13, stdDay "14"]⟩⟩⟩

def c6Store : Store := (parse_talks c6Data).toOption.getD ⟨[], []⟩

/-- C6 counterexample: the loaded store keeps talk "gA" in its talk dict, but
its time-index slot was overwritten by "gB" (same start and track), so
get_current_talks at gA's own start time returns only gB's talk: a Talk of
the store that talksActiveAt(start(T)) does not include. -/
theorem c6_counterexample :
    parse_talks c6Data = .ok c6Store ∧
    assocLookup c6Store.talks "gA" =
      some ⟨mkDate "13" 9 0, "TA", [], "Track 1"⟩ ∧
    get_current_talks c6Store (mkDate "13" 9 0) =
      .ok [⟨mkDate "13" 9 0, "TB", [], "Track 1"⟩] ∧
    (⟨mkDate "13" 9 0, "TA", [], "Track 1"⟩ : Talk) ∉
      [(⟨mkDate "13" 9 0, "TB", [], "Track 1"⟩ : Talk)] := by
  decide

/-- C6 (amended): for every coherent store and every talk referenced by a
time-index entry, the entry's end is exactly its start plus 30 minutes (1800
seconds of instant, via the calendar-carrying add30), the talk is included in
get_current_talks at the entry's start string, and excluded at its end string
(half-open window). -/
theorem c6_half_open_amended :
    ∀ (store : Store) (e : (String × String × String) × String) (dt : DT) (talk : Talk),
      WFStore store → e ∈ store.time_wise →
      fromisoformat e.1.1 = some dt → assocLookup store.talks e.2 = some talk →
      ∃ active activeEnd,
        get_current_talks store e.1.1 = .ok active ∧
        get_current_talks store e.1.2.1 = .ok activeEnd ∧
        talk ∈ active ∧ talk ∉ activeEnd ∧
        fromisoformat e.1.2.1 = some (add30 dt) ∧
        instantSec (add30 dt) = instantSec dt + 1800 := by
  intro store e dt talk hWF he hdt hlook
  obtain ⟨dt', talk', h1, h2, h3, h4, h5, h6, h7⟩ := wfEntry_spec store.talks e (hWF e he)
  obtain rfl : dt = dt' := Option.some_inj.mp (hdt.symm.trans h1)
  obtain rfl : talk = talk' := Option.some_inj.mp (hlook.symm.trans h5)
  have hend_parse : fromisoformat e.1.2.1 = some (add30 dt) := by
    rw [h4]
    exact fromisoformat_isoformat (add30 dt) (add30_valid dt h2 h3)
  have hshift : instantSec (add30 dt) = instantSec dt + 1800 := instantSec_add30 dt h2
  refine ⟨store.time_wise.filterMap (activeEntry store.talks dt),
    store.time_wise.filterMap (activeEntry store.talks (add30 dt)),
    ?_, ?_, ?_, ?_, hend_parse, hshift⟩
  · unfold get_current_talks
    rw [hdt]
    show currentGo store.talks dt store.time_wise = _
    exact currentGo_ok store.talks dt store.time_wise hWF
  · unfold get_current_talks
    rw [hend_parse]
    show currentGo store.talks (add30 dt) store.time_wise = _
    exact currentGo_ok store.talks (add30 dt) store.time_wise hWF
  · refine List.mem_filterMap.mpr ⟨e, he, ?_⟩
    rw [activeEntry_eq store.talks dt e dt (add30 dt) talk h1 hend_parse h5]
    rw [if_pos ⟨le_refl _, by rw [hshift]; omega⟩]
  · intro hmem
    obtain ⟨e2, he2, hact⟩ := List.mem_filterMap.mp hmem
    obtain ⟨dt2, talk2, g1, g2, g3, g4, g5, g6, g7⟩ :=
      wfEntry_spec store.talks e2 (hWF e2 he2)
    have hend2 : fromisoformat e2.1.2.1 = some (add30 dt2) := by
      rw [g4]
      exact fromisoformat_isoformat (add30 dt2) (add30_valid dt2 g2 g3)
    rw [activeEntry_eq store.talks (add30 dt) e2 dt2 (add30 dt2) talk2 g1 hend2 g5] at hact
    by_cases hcond : instantSec dt2 ≤ instantSec (add30 dt) ∧
        instantSec (add30 dt) < instantSec (add30 dt2)
    · rw [if_pos hcond] at hact
      obtain rfl : talk2 = talk := Option.some_inj.mp hact
      have hstr : e2.1.1 = e.1.1 := by rw [← g6, h6]
      rw [hstr, h1] at g1
      obtain rfl := Option.some_inj.mp g1
      exact absurd hcond.2 (lt_irrefl _)
    · rw [if_neg hcond] at hact
      cases hact

theorem c6_half_open_amended_witness :
    ∃ active activeEnd,
      get_current_talks stdStore (mkDate "13" 9 0) = .ok active ∧
      get_current_talks stdStore (mkDate "13" 9 30) = .ok activeEnd ∧
      (⟨mkDate "13" 9 0, "T00", [], "Track 1"⟩ : Talk) ∈ active ∧
      (⟨mkDate "13" 9 0, "T00", [], "Track 1"⟩ : Talk) ∉ activeEnd ∧
      fromisoformat (mkDate "13" 9 30) = some (add30 ⟨2025, 9, 13, 9, 0, 0, 330⟩) ∧
      instantSec (add30 ⟨2025, 9, 13, 9, 0, 0, 330⟩) =
        instantSec ⟨2025, 9, 13, 9, 0, 0, 330⟩ + 1800 :=
  c6_half_open_amended stdStore ((mkDate "13" 9 0, mkDate "13" 9 30, "Track 1"), "g0130")
    ⟨2025, 9, 13, 9, 0, 0, 330⟩ ⟨mkDate "13" 9 0, "T00", [], "Track 1"⟩
    (by decide) (by decide) (by decide) (by decide)
